import Mathlib

/-!
# HyperLogLog estimator (`hll.c`)

A shallow embedding of the C implementation of the HyperLogLog cardinality
estimator.  Machine integers are natural numbers reduced modulo `2 ^ 32`
wherever the C arithmetic is `uint32_t` arithmetic; the register array is a
list of natural numbers; an access outside the array is an explicit error.
-/

namespace HLL

/-- Modulus of `uint32_t` arithmetic. -/
def U32 : Nat := 4294967296

/-- Outcomes that are not a normal return. -/
inductive HLLError where
  /-- The `PyExc_ValueError` raised by `HyperLogLog_new`. -/
  | valueError
  /-- A failed `PyArg_ParseTupleAndKeywords` in `HyperLogLog_new` (line 36). -/
  | parseError
  /-- An access `registers[index]` with `index` outside the allocated block. -/
  | outOfBounds
  deriving DecidableEq, Repr

/-- The `HyperLogLog` struct: `short int k`, `uint32_t seed`, `uint32_t size`
and the `char` array `registers` (one list entry per allocated byte). -/
structure HyperLogLog where
  k : Int
  seed : Nat
  size : Nat
  registers : List Nat
  deriving DecidableEq, Repr

/-- The value a `short int` field holds once a C `int` has been stored through
its address, as the `"i"` converter does with `&self->k` on line 35: the low 16
bits of the `int`, read as a signed number (little-endian layout). -/
def storeThroughShort (n : Int) : Int :=
  (n + 32768) % 65536 - 32768

/-- Lines 39-49 of `HyperLogLog_new`, from the value held in `self->k` on: the
range test raises `ValueError`; otherwise `size = 1 << k` and `size` zeroed
bytes are allocated.  `seed` is the value held in `self->seed`. -/
def HyperLogLog_new_field (k : Int) (seed : Nat) : Except HLLError HyperLogLog :=
  if k < 2 ∨ k > 16 then
    .error .valueError
  else
    let size := (1 <<< k.toNat) % U32
    .ok { k := k, seed := seed, size := size, registers := List.replicate size 0 }

/-- The constructor `HyperLogLog_new` on the integer `k` passed as first argument.
The `"i"` converter refuses an integer that is not a C `int`, and the parse
fails (lines 34-37); otherwise it stores the `int` through `&self->k`, a
`short int`, so that the field tested on line 39 is `storeThroughShort k`. -/
def HyperLogLog_new (k : Int) (seed : Nat) : Except HLLError HyperLogLog :=
  if k < -2147483648 ∨ k > 2147483647 then
    .error .parseError
  else
    HyperLogLog_new_field (storeThroughShort k) seed

/-- The accessor `HyperLogLog_size`: `Py_BuildValue("i", self->size)`, the `uint32_t`
read as a C `int`. -/
def HyperLogLog_size (self : HyperLogLog) : Int :=
  if self.size < 2147483648 then (self.size : Int) else (self.size : Int) - 4294967296

/-- The accessor `HyperLogLog_registers`: a copy of the `size` register bytes. -/
def HyperLogLog_registers (self : HyperLogLog) : List Nat :=
  self.registers.take self.size

/-- The function `ones`: population count by parallel summation, in `uint32_t` arithmetic. -/
def ones (x : Nat) : Nat :=
  let x := (x + U32 - ((x >>> 1) &&& 0x55555555)) % U32
  let x := (((x >>> 2) &&& 0x33333333) + (x &&& 0x33333333)) % U32
  let x := (((x >>> 4) + x) % U32) &&& 0x0F0F0F0F
  let x := (x + (x >>> 8)) % U32
  let x := (x + (x >>> 16)) % U32
  x &&& 0x0000003F

/-- The function `leadingZeroCount`: smear the highest set bit downwards, then count. -/
def leadingZeroCount (x : Nat) : Nat :=
  let x := x ||| (x >>> 1)
  let x := x ||| (x >>> 2)
  let x := x ||| (x >>> 4)
  let x := x ||| (x >>> 8)
  let x := x ||| (x >>> 16)
  (32 + U32 - ones x) % U32

/-- Line 78 of `HyperLogLog_add`: `index = (*hash >> (32 - self->k)) + 1`. -/
def HyperLogLog_add_index (k : Int) (hash : Nat) : Nat :=
  ((hash >>> (32 - k).toNat) + 1) % U32

/-- The argument of `leadingZeroCount` on line 81:
`(*hash << self->k) >> self->k`. -/
def HyperLogLog_add_field (k : Int) (hash : Nat) : Nat :=
  ((hash <<< k.toNat) % U32) >>> k.toNat

/-- Line 81 of `HyperLogLog_add`:
`rank = leadingZeroCount((*hash << self->k) >> self->k) - self->k + 1`. -/
def HyperLogLog_add_rank (k : Int) (hash : Nat) : Nat :=
  ((leadingZeroCount (HyperLogLog_add_field k hash) + U32 - k.toNat) % U32 + 1) % U32

/-- Lines 77-84 of `HyperLogLog_add`, from the 32-bit hash value on:
`if (rank > self->registers[index]) self->registers[index] = rank;`.
Reading `registers[index]` outside the allocated block is an error.  The
comparison is made in `uint32_t` and the store narrows `rank` to `char`; on
register values below 128 both conversions keep the value. -/
def HyperLogLog_add_hash (self : HyperLogLog) (hash : Nat) : Except HLLError HyperLogLog :=
  let index := HyperLogLog_add_index self.k hash
  let rank := HyperLogLog_add_rank self.k hash
  match self.registers[index]? with
  | none => .error .outOfBounds
  | some r =>
    if rank > r then
      .ok { self with registers := self.registers.set index (rank % 256) }
    else
      .ok self

/-- The method `HyperLogLog_add`: hash the element's bytes with the estimator's seed
(`MurmurHash3_x86_32`, an external function taken as a parameter and read as a
`uint32_t`), then update one register. -/
def HyperLogLog_add (murmur : List Nat → Nat → Nat) (self : HyperLogLog)
    (data : List Nat) : Except HLLError HyperLogLog :=
  HyperLogLog_add_hash self (murmur data self.seed % U32)

/-- Estimator states the C code can hold after a successful construction:
`k` in range, `size = 2 ^ k`, `size` allocated registers, and every register a
`char` value in `0 .. 127` (where signed and unsigned `char` agree). -/
def WF (self : HyperLogLog) : Prop :=
  2 ≤ self.k ∧ self.k ≤ 16 ∧ self.size = 2 ^ self.k.toNat ∧
    self.registers.length = self.size ∧ ∀ r ∈ self.registers, r < 128

/-- The five smearing assignments of `leadingZeroCount`, before the count. -/
def smear (x : Nat) : Nat :=
  let x := x ||| (x >>> 1)
  let x := x ||| (x >>> 2)
  let x := x ||| (x >>> 4)
  let x := x ||| (x >>> 8)
  let x := x ||| (x >>> 16)
  x

/-- Specification side of the rank: the number of zero bits met when a field
of `w` bits is read from its most significant bit (bit `w - 1`) downwards,
stopping at the first 1-bit; `w` when the field is entirely zero. -/
def leadingZerosOfField : Nat → Nat → Nat
  | 0, _ => 0
  | w + 1, x => if x.testBit w then 0 else 1 + leadingZerosOfField w x

/-- Adding the same element `n` times in a row through `HyperLogLog_add`,
stopping at the first failing call. -/
def addRepeated (murmur : List Nat → Nat → Nat) (self : HyperLogLog) (data : List Nat) :
    Nat → Except HLLError HyperLogLog
  | 0 => .ok self
  | n + 1 => addRepeated murmur self data n >>= fun s => HyperLogLog_add murmur s data

/-- The `switch (self->size)` of `HyperLogLog_cardinality`. -/
def alpha (size : Nat) : ℚ :=
  match size with
  | 16 => 0.673
  | 32 => 0.697
  | 64 => 0.709
  | _ => 0.7213 / (1.0 + 1.079 / (size : ℚ))

/-- The first loop of `HyperLogLog_cardinality`:
`sum = sum + 1.0/pow(2, rank)` with `rank = self->registers[i]`. -/
def harmonicSum (self : HyperLogLog) : ℚ :=
  (List.range self.size).foldl
    (fun sum i => sum + 1.0 / (2 : ℚ) ^ (self.registers.getD i 0)) 0.0

/-- The test `self->registers == 0` of the zero-counting loop: it compares the
array pointer itself with the null pointer.  The pointer is the block that
`HyperLogLog_new` allocated and filled, so the test is false in every state. -/
def registersPointerIsNull (_self : HyperLogLog) : Bool := false

/-- The second loop of `HyperLogLog_cardinality`:
`if (self->registers == 0) zeros += 1;` for each `i < size`. -/
def countZeros (self : HyperLogLog) : Nat :=
  (List.range self.size).foldl
    (fun zeros _ => if registersPointerIsNull self then (zeros + 1) % U32 else zeros) 0

/-- Line 120 of `HyperLogLog_cardinality`:
`estimate = alpha * (1/sum) * self->size * self->size`. -/
def rawEstimate (self : HyperLogLog) : ℚ :=
  alpha self.size * (1 / harmonicSum self) * (self.size : ℚ) * (self.size : ℚ)

/-- The method `HyperLogLog_cardinality`, with the `double` arithmetic read as exact
rational arithmetic and the library logarithm `log` taken as the parameter
`ln`.  `self->size/zeros` is the integer quotient of two `uint32_t`. -/
def HyperLogLog_cardinality (ln : ℚ → ℚ) (self : HyperLogLog) : ℚ :=
  let two_32 : ℚ := 4294967296.0
  let neg_two_32 : ℚ := -4294967296.0
  let estimate := rawEstimate self
  let estimate :=
    if estimate ≤ 2.5 * (self.size : ℚ) then
      let zeros := countZeros self
      if zeros ≠ 0 then (self.size : ℚ) * ln ((self.size / zeros : Nat) : ℚ) else estimate
    else estimate
  if estimate ≤ (1.0 / 30.0) * two_32 then
    estimate
  else if estimate > (1.0 / 30.0) * two_32 then
    neg_two_32 * ln (1.0 - estimate / two_32)
  else
    estimate

/-- Feeding a stream of hash values to `HyperLogLog_add`, one call after the
other, stopping at the first failing call. -/
def addAll (self : HyperLogLog) : List Nat → Except HLLError HyperLogLog
  | [] => .ok self
  | h :: hs => HyperLogLog_add_hash self h >>= fun s => addAll s hs

/-- States reached from a successful `HyperLogLog_new` by a sequence of
completed adds of 32-bit hash values. -/
def Reachable (s : HyperLogLog) : Prop :=
  ∃ (k : Int) (seed : Nat) (hashes : List Nat) (s0 : HyperLogLog),
    HyperLogLog_new k seed = .ok s0 ∧ (∀ h ∈ hashes, h < 2 ^ 32) ∧ addAll s0 hashes = .ok s

/-- Invariant of the reachable states: well formed, register 0 still zero, and
no register above the largest rank `32 - k + 1`. -/
def ReachInv (s : HyperLogLog) : Prop :=
  WF s ∧ s.registers.getD 0 0 = 0 ∧ ∀ r ∈ s.registers, r ≤ 32 - s.k.toNat + 1

/-- Specification side of the alternative rank wording: the position, counting
from 1 at bit 0 and going up, of the least-significant 1-bit among the low `w`
bits of `x`; `none` when those bits are all zero. -/
def leastSignificantOnePosition (w x : Nat) : Option Nat :=
  ((List.range w).find? (fun i => x.testBit i)).map (· + 1)

/-- The position, counting from 1 at the top bit `w - 1` of a `w`-bit field and
going down, of the most-significant 1-bit of `x`; `none` when the field is
all zero. -/
def mostSignificantOnePosition (w x : Nat) : Option Nat :=
  ((List.range w).find? (fun i => x.testBit (w - 1 - i))).map (· + 1)


/-- The names registered in the method table `HyperLogLog_methods`, in order.
The entry for `merge` and the function `HyperLogLog_merge` stand inside
comments in the source, so neither is compiled. -/
def HyperLogLog_methods : List String :=
  ["add", "cardinality", "registers", "size"]

/-- Specification side of `ones`: the number of positions below `w` at which `x`
has a 1-bit. -/
def popCount (w x : Nat) : Nat :=
  (List.range w).countP (fun i => x.testBit i)

/-- The mask made of `n` copies of the 4-bit pattern `m`; `nibbleMask 5 8` is
`0x55555555` and `nibbleMask 3 8` is `0x33333333`. -/
def nibbleMask (m : Nat) : Nat → Nat
  | 0 => 0
  | n + 1 => 2 ^ 4 * nibbleMask m n + m

/-- The first two assignments of `ones` on a value of `n` nibbles, before any
reduction modulo `2 ^ 32`. -/
def pairSums (n x : Nat) : Nat :=
  let y := x - ((x >>> 1) &&& nibbleMask 5 n)
  ((y >>> 2) &&& nibbleMask 3 n) + (y &&& nibbleMask 3 n)

/-- The first two assignments of `ones` on a single nibble. -/
def nibbleCount (a : Nat) : Nat :=
  let y := a - ((a >>> 1) &&& 5)
  ((y >>> 2) &&& 3) + (y &&& 3)

/-- The number whose nibbles are `g` of the nibbles of `x`, for the low `n` nibbles. -/
def nibbleMap (g : Nat → Nat) : Nat → Nat → Nat
  | 0, _ => 0
  | n + 1, x => g (x % 16) + 16 * nibbleMap g n (x / 16)

/-- The sum of `g` over the low `n` nibbles of `x`. -/
def nibbleSum (g : Nat → Nat) : Nat → Nat → Nat
  | 0, _ => 0
  | n + 1, x => g (x % 16) + nibbleSum g n (x / 16)

/-! ## Bit-level facts -/

/-- One smearing step doubles the window of source bits each result bit sees. -/
theorem smear_step (x y n : Nat)
    (hy : ∀ i, y.testBit i = true ↔ ∃ j, j < n ∧ x.testBit (i + j) = true) :
    ∀ i, (y ||| (y >>> n)).testBit i = true ↔ ∃ j, j < 2 * n ∧ x.testBit (i + j) = true := by
  intro i
  rw [Nat.testBit_lor, Nat.testBit_shiftRight, Bool.or_eq_true, hy, hy]
  constructor
  · rintro (⟨j, hj, hb⟩ | ⟨j, hj, hb⟩)
    · exact ⟨j, by omega, hb⟩
    · exact ⟨n + j, by omega, by rw [← hb]; congr 1; omega⟩
  · rintro ⟨j, hj, hb⟩
    by_cases hjn : j < n
    · exact Or.inl ⟨j, hjn, hb⟩
    · exact Or.inr ⟨j - n, by omega, by rw [← hb]; congr 1; omega⟩

/-- The bit just below the bit length of a non-zero number is set. -/
theorem testBit_size_pred (x : Nat) (hx : x ≠ 0) : x.testBit (x.size - 1) = true := by
  obtain ⟨i, hi, hj⟩ := Nat.exists_most_significant_bit hx
  have h1 : 2 ^ i ≤ x := Nat.testBit_implies_ge hi
  have h2 : x < 2 ^ (i + 1) := Nat.lt_pow_two_of_testBit x (fun j hj2 => hj j (by omega))
  have h3 : i < x.size := Nat.lt_size.2 h1
  have h4 : x.size ≤ i + 1 := Nat.size_le.2 h2
  have : x.size - 1 = i := by omega
  rw [this]; exact hi

/-- Smearing a 32-bit value sets exactly the bits below its bit length. -/
theorem smear_eq (x : Nat) (hx : x < 2 ^ 32) : smear x = 2 ^ x.size - 1 := by
  have h0 : ∀ i, x.testBit i = true ↔ ∃ j, j < 1 ∧ x.testBit (i + j) = true := by
    intro i
    constructor
    · intro h; exact ⟨0, by omega, h⟩
    · rintro ⟨j, hj, hb⟩
      have : j = 0 := by omega
      subst this; exact hb
  have h1 := smear_step x _ 1 h0
  have h2 := smear_step x _ 2 h1
  have h3 := smear_step x _ 4 h2
  have h4 := smear_step x _ 8 h3
  have h5 := smear_step x _ 16 h4
  have hsz : x.size ≤ 32 := Nat.size_le.2 hx
  apply Nat.eq_of_testBit_eq
  intro i
  rw [Nat.testBit_two_pow_sub_one]
  by_cases hi : i < x.size
  · have hx0 : x ≠ 0 := by
      rintro rfl
      simp at hi
    have hb := testBit_size_pred x hx0
    have : (smear x).testBit i = true :=
      (h5 i).2 ⟨x.size - 1 - i, by omega, by rw [← hb]; congr 1; omega⟩
    simp [this, hi]
  · have : (smear x).testBit i = false := by
      by_contra hne
      have ht : (smear x).testBit i = true := by simpa using hne
      obtain ⟨j, _, hb⟩ := (h5 i).1 ht
      have := Nat.lt_size.2 (Nat.testBit_implies_ge hb)
      omega
    simp [this, hi]

/-- The population count of a block of `n` low ones is `n`. -/
theorem ones_two_pow_sub_one (n : Nat) (hn : n ≤ 32) : ones (2 ^ n - 1) = n := by
  interval_cases n <;> decide

/-- On 32-bit values `leadingZeroCount` is 32 minus the bit length. -/
theorem leadingZeroCount_eq (x : Nat) (hx : x < 2 ^ 32) :
    leadingZeroCount x = 32 - x.size := by
  have hsz : x.size ≤ 32 := Nat.size_le.2 hx
  have h : leadingZeroCount x = (32 + U32 - ones (smear x)) % U32 := rfl
  rw [h, smear_eq x hx, ones_two_pow_sub_one _ hsz]
  unfold U32
  omega

/-- Reading a `w`-bit field from the top meets `w` minus bit length zeros. -/
theorem leadingZerosOfField_eq (w x : Nat) (hx : x < 2 ^ w) :
    leadingZerosOfField w x = w - x.size := by
  induction w with
  | zero =>
    simp [leadingZerosOfField]
  | succ w ih =>
    unfold leadingZerosOfField
    by_cases hb : x.testBit w = true
    · have h1 : w < x.size := Nat.lt_size.2 (Nat.testBit_implies_ge hb)
      simp only [hb, if_true]
      omega
    · have hlt : x < 2 ^ w := by
        apply Nat.lt_pow_two_of_testBit
        intro i hi
        rcases Nat.eq_or_lt_of_le hi with h | h
        · subst h; simpa using hb
        · exact Nat.testBit_lt_two_pow
            (lt_of_lt_of_le hx (Nat.pow_le_pow_right (by norm_num) h))
      have h2 : x.size ≤ w := Nat.size_le.2 hlt
      simp only [hb]
      rw [ih hlt]
      simp
      omega

/-- Shifting a 32-bit value left then right by `k` keeps its low `32 - k` bits. -/
theorem add_field_eq (k h : Nat) (hk : k ≤ 32) :
    ((h <<< k) % U32) >>> k = h % 2 ^ (32 - k) := by
  have hU : U32 = 2 ^ (32 - k) * 2 ^ k := by
    rw [← pow_add]
    have : 32 - k + k = 32 := by omega
    rw [this]; rfl
  rw [Nat.shiftLeft_eq, Nat.shiftRight_eq_div_pow, hU, Nat.mul_mod_mul_right]
  exact Nat.mul_div_cancel _ (by positivity)

/-! ## The update of `HyperLogLog_add` -/

/-- Writing back the value already stored leaves a list unchanged. -/
theorem set_getElem_same (l : List Nat) (i : Nat) (hi : i < l.length) :
    l.set i l[i] = l := by
  apply List.ext_getElem?
  intro j
  by_cases h : i = j
  · subst h
    simp [hi]
  · simp [h]

/-- The rank in closed form: the field width minus the bit length of the field, plus one. -/
theorem add_rank_eq (n h : Nat) (hn : 2 ≤ n ∧ n ≤ 16) :
    (h % 2 ^ (32 - n)).size ≤ 32 - n ∧
    HyperLogLog_add_rank (n : Int) h = 32 - (h % 2 ^ (32 - n)).size - n + 1 := by
  have hf : HyperLogLog_add_field (n : Int) h = h % 2 ^ (32 - n) := by
    unfold HyperLogLog_add_field
    simpa using add_field_eq n h (by omega)
  have hlt : h % 2 ^ (32 - n) < 2 ^ (32 - n) := Nat.mod_lt _ (by positivity)
  have hlt32 : h % 2 ^ (32 - n) < 2 ^ 32 :=
    lt_of_lt_of_le hlt (Nat.pow_le_pow_right (by norm_num) (by omega))
  have hsz : (h % 2 ^ (32 - n)).size ≤ 32 - n := Nat.size_le.2 hlt
  refine ⟨hsz, ?_⟩
  unfold HyperLogLog_add_rank
  rw [hf, leadingZeroCount_eq _ hlt32]
  simp only [Int.toNat_ofNat, U32]
  omega

/-- Every rank `HyperLogLog_add` proposes lies in `[1, 31]`. -/
theorem add_rank_bounds (k : Int) (h : Nat) (hk : 2 ≤ k ∧ k ≤ 16) :
    1 ≤ HyperLogLog_add_rank k h ∧ HyperLogLog_add_rank k h ≤ 31 := by
  obtain ⟨n, rfl⟩ : ∃ n : Nat, k = (n : Int) := ⟨k.toNat, by omega⟩
  have hn : 2 ≤ n ∧ n ≤ 16 := by omega
  obtain ⟨h1, h2⟩ := add_rank_eq n h hn
  omega

/-- The index line 78 computes, without the modulus: the top `k` bits plus one. -/
theorem add_index_eq (k : Int) (h : Nat) (hk : 2 ≤ k ∧ k ≤ 16) (hh : h < 2 ^ 32) :
    HyperLogLog_add_index k h = h / 2 ^ (32 - k.toNat) + 1 ∧
    h / 2 ^ (32 - k.toNat) < 2 ^ k.toNat := by
  obtain ⟨n, rfl⟩ : ∃ n : Nat, k = (n : Int) := ⟨k.toNat, by omega⟩
  have hn : 2 ≤ n ∧ n ≤ 16 := by omega
  have hsh : (32 - (n : Int)).toNat = 32 - n := by omega
  have hpow : (2 : Nat) ^ 32 = 2 ^ (32 - n) * 2 ^ n := by
    rw [← pow_add]
    congr 1
    omega
  have hdiv : h / 2 ^ (32 - n) < 2 ^ n := by
    rw [Nat.div_lt_iff_lt_mul (by positivity)]
    rw [mul_comm, ← hpow]
    exact hh
  have hle : 2 ^ n ≤ 2 ^ 16 := Nat.pow_le_pow_right (by norm_num) hn.2
  refine ⟨?_, by simpa using hdiv⟩
  unfold HyperLogLog_add_index
  rw [hsh, Nat.shiftRight_eq_div_pow]
  simp only [Int.toNat_ofNat]
  apply Nat.mod_eq_of_lt
  unfold U32
  omega

/-- With the index inside the array, the update stores the maximum of the old
register value and the rank. -/
theorem add_hash_eq (s : HyperLogLog) (h : Nat) (hwf : WF s)
    (hidx : HyperLogLog_add_index s.k h < s.size) :
    HyperLogLog_add_hash s h = .ok { s with registers :=
      (s.registers.set (HyperLogLog_add_index s.k h)
        (max (s.registers.getD (HyperLogLog_add_index s.k h) 0)
          (HyperLogLog_add_rank s.k h))) } := by
  obtain ⟨hk1, hk2, hsize, hlen, hreg⟩ := hwf
  have hi : HyperLogLog_add_index s.k h < s.registers.length := by omega
  have hr := add_rank_bounds s.k h ⟨hk1, hk2⟩
  unfold HyperLogLog_add_hash
  simp only [List.getElem?_eq_getElem hi, List.getD_eq_getElem?_getD, Option.getD_some]
  by_cases hgt : HyperLogLog_add_rank s.k h > s.registers[HyperLogLog_add_index s.k h]
  · have hm : HyperLogLog_add_rank s.k h % 256 = HyperLogLog_add_rank s.k h :=
      Nat.mod_eq_of_lt (by omega)
    simp only [hgt, if_true, hm]
    rw [max_eq_right (le_of_lt hgt)]
  · simp only [hgt, if_false]
    rw [max_eq_left (by omega), set_getElem_same _ _ hi]

/-- With the index outside the array, the register access fails. -/
theorem add_hash_error (s : HyperLogLog) (h : Nat) (hwf : WF s)
    (hidx : ¬ HyperLogLog_add_index s.k h < s.size) :
    HyperLogLog_add_hash s h = .error .outOfBounds := by
  obtain ⟨hk1, hk2, hsize, hlen, hreg⟩ := hwf
  unfold HyperLogLog_add_hash
  have : s.registers[HyperLogLog_add_index s.k h]? = none :=
    List.getElem?_eq_none (by omega)
  simp only [this]

/-- A successful update keeps the estimator state well formed. -/
theorem add_hash_wf (s s' : HyperLogLog) (h : Nat) (hwf : WF s)
    (hadd : HyperLogLog_add_hash s h = .ok s') : WF s' := by
  by_cases hidx : HyperLogLog_add_index s.k h < s.size
  · rw [add_hash_eq s h hwf hidx] at hadd
    have hr := add_rank_bounds s.k h ⟨hwf.1, hwf.2.1⟩
    obtain ⟨hk1, hk2, hsize, hlen, hreg⟩ := hwf
    cases hadd
    refine ⟨hk1, hk2, hsize, by simpa using hlen, ?_⟩
    intro r hrm
    rcases List.mem_or_eq_of_mem_set hrm with hm | rfl
    · exact hreg r hm
    · have hi : HyperLogLog_add_index s.k h < s.registers.length := by omega
      have : s.registers.getD (HyperLogLog_add_index s.k h) 0 < 128 := by
        rw [List.getD_eq_getElem _ _ hi]
        exact hreg _ (List.getElem_mem _)
      simp only [max_lt_iff]
      omega
  · rw [add_hash_error s h hwf hidx] at hadd
    cases hadd

/-- Adding a hash value again after a successful add changes nothing; the
seed, `k` and `size` fields are never modified. -/
theorem add_hash_idem (s s1 : HyperLogLog) (h : Nat) (hwf : WF s)
    (hadd : HyperLogLog_add_hash s h = .ok s1) :
    HyperLogLog_add_hash s1 h = .ok s1 ∧ s1.seed = s.seed ∧ s1.k = s.k ∧ s1.size = s.size := by
  have hwf1 := add_hash_wf s s1 h hwf hadd
  by_cases hidx : HyperLogLog_add_index s.k h < s.size
  · rw [add_hash_eq s h hwf hidx] at hadd
    cases hadd
    refine ⟨?_, rfl, rfl, rfl⟩
    rw [add_hash_eq _ h hwf1 hidx]
    have hi : HyperLogLog_add_index s.k h < s.registers.length := by
      have := hwf.2.2.2.1
      omega
    simp [List.getD_eq_getElem?_getD, List.getElem?_set_self hi]
  · rw [add_hash_error s h hwf hidx] at hadd
    cases hadd

/-- With `(idx, rank)` the pair lines 78 and 81 derive from the hash, a completed
add leaves `max(old registers[idx], rank)` in register `idx` and every other
register as it was; the add completes whenever `idx` is inside the array. -/
theorem add_hash_sets_max_when_completed (s : HyperLogLog) (h : Nat) (hwf : WF s) (_hh : h < 2 ^ 32) :
    (HyperLogLog_add_index s.k h < s.size → ∃ s', HyperLogLog_add_hash s h = .ok s') ∧
    ∀ s', HyperLogLog_add_hash s h = .ok s' →
      s'.registers[HyperLogLog_add_index s.k h]?
        = some (max (s.registers.getD (HyperLogLog_add_index s.k h) 0)
            (HyperLogLog_add_rank s.k h)) ∧
      (∀ j, j ≠ HyperLogLog_add_index s.k h → s'.registers[j]? = s.registers[j]?) ∧
      s'.registers.length = s.registers.length ∧
      s'.k = s.k ∧ s'.seed = s.seed ∧ s'.size = s.size := by
  refine ⟨fun hidx => ⟨_, add_hash_eq s h hwf hidx⟩, ?_⟩
  intro s' hadd
  by_cases hidx : HyperLogLog_add_index s.k h < s.size
  · rw [add_hash_eq s h hwf hidx] at hadd
    cases hadd
    have hi : HyperLogLog_add_index s.k h < s.registers.length := by
      have := hwf.2.2.2.1
      omega
    refine ⟨by simp [List.getElem?_set_self hi], ?_, by simp, rfl, rfl, rfl⟩
    intro j hj
    simp [List.getElem?_set_ne (Ne.symm hj)]
  · rw [add_hash_error s h hwf hidx] at hadd
    cases hadd

/-! ## The zero count of `HyperLogLog_cardinality` -/

/-- The zero-counting loop never increments: its test is on the array pointer. -/
theorem countZeros_eq_zero (s : HyperLogLog) : countZeros s = 0 := by
  unfold countZeros
  generalize List.range s.size = l
  induction l with
  | nil => rfl
  | cons a l ih => simp [registersPointerIsNull]

/-- The small-range block never replaces the estimate: the value returned is
the raw estimate, or its large-range correction. -/
theorem cardinality_eq_raw_or_large (ln : ℚ → ℚ) (s : HyperLogLog) :
    HyperLogLog_cardinality ln s =
      if rawEstimate s ≤ (1.0 / 30.0) * 4294967296.0 then rawEstimate s
      else -4294967296.0 * ln (1.0 - rawEstimate s / 4294967296.0) := by
  unfold HyperLogLog_cardinality
  simp only [countZeros_eq_zero, ne_eq, not_true_eq_false, if_false, ite_self]
  by_cases h : rawEstimate s ≤ (1.0 / 30.0) * 4294967296.0
  · simp only [h, if_true]
  · have h2 : rawEstimate s > (1.0 / 30.0) * 4294967296.0 := lt_of_not_le h
    simp only [h, h2, if_true, if_false]

/-! ## Reachable states -/

/-- For a field value inside the `short` range the constructor is lines 39-49. -/
theorem new_of_short_range (k : Int) (seed : Nat) (h1 : -32768 ≤ k) (h2 : k ≤ 32767) :
    HyperLogLog_new k seed = HyperLogLog_new_field k seed := by
  have hno : ¬ (k < -2147483648 ∨ k > 2147483647) := by omega
  have hst : storeThroughShort k = k := by
    unfold storeThroughShort
    omega
  unfold HyperLogLog_new
  rw [if_neg hno, hst]

/-- The state lines 39-49 allocate satisfies the invariant. -/
theorem new_field_reachInv (k : Int) (seed : Nat) (s0 : HyperLogLog)
    (hnew : HyperLogLog_new_field k seed = .ok s0) : ReachInv s0 := by
  unfold HyperLogLog_new_field at hnew
  by_cases hk : k < 2 ∨ k > 16
  · simp [hk] at hnew
  · simp only [hk, if_false] at hnew
    cases hnew
    obtain ⟨n, rfl⟩ : ∃ n : Nat, k = (n : Int) := ⟨k.toNat, by omega⟩
    have hn : 2 ≤ n ∧ n ≤ 16 := by omega
    have hle : 2 ^ n ≤ 2 ^ 16 := Nat.pow_le_pow_right (by norm_num) hn.2
    have hsz : (1 <<< n) % U32 = 2 ^ n := by
      rw [Nat.shiftLeft_eq, one_mul]
      apply Nat.mod_eq_of_lt
      unfold U32
      omega
    refine ⟨⟨?_, ?_, ?_, ?_, ?_⟩, ?_, ?_⟩
    · show (2 : Int) ≤ n
      omega
    · show (n : Int) ≤ 16
      omega
    · show (1 <<< (n : Int).toNat) % U32 = 2 ^ (n : Int).toNat
      simpa using hsz
    · show (List.replicate _ 0).length = _
      simp
    · intro r hr
      rw [List.eq_of_mem_replicate hr]
      norm_num
    · show (List.replicate _ 0).getD 0 0 = 0
      simp only [List.getD_eq_getElem?_getD, List.getElem?_replicate]
      split <;> rfl
    · intro r hr
      rw [List.eq_of_mem_replicate hr]
      omega

/-- A freshly constructed estimator satisfies the invariant. -/
theorem new_reachInv (k : Int) (seed : Nat) (s0 : HyperLogLog)
    (hnew : HyperLogLog_new k seed = .ok s0) : ReachInv s0 := by
  unfold HyperLogLog_new at hnew
  by_cases ho : k < -2147483648 ∨ k > 2147483647
  · rw [if_pos ho] at hnew
    cases hnew
  · rw [if_neg ho] at hnew
    exact new_field_reachInv _ seed s0 hnew

/-- A completed add of a 32-bit hash keeps the invariant. -/
theorem add_reachInv (s s' : HyperLogLog) (h : Nat) (hinv : ReachInv s) (hh : h < 2 ^ 32)
    (hadd : HyperLogLog_add_hash s h = .ok s') : ReachInv s' := by
  obtain ⟨hwf, h0, hb⟩ := hinv
  have hwf' := add_hash_wf s s' h hwf hadd
  refine ⟨hwf', ?_⟩
  by_cases hidx : HyperLogLog_add_index s.k h < s.size
  · rw [add_hash_eq s h hwf hidx] at hadd
    cases hadd
    have hi := (add_index_eq s.k h ⟨hwf.1, hwf.2.1⟩ hh).1
    have hne : HyperLogLog_add_index s.k h ≠ 0 := by
      rw [hi]
      exact Nat.succ_ne_zero _
    have hlen : HyperLogLog_add_index s.k h < s.registers.length := by
      have := hwf.2.2.2.1
      omega
    constructor
    · simpa [List.getD_eq_getElem?_getD, List.getElem?_set_ne hne] using h0
    · intro r hrm
      rcases List.mem_or_eq_of_mem_set hrm with hm | rfl
      · exact hb r hm
      · have hold : s.registers.getD (HyperLogLog_add_index s.k h) 0 ≤ 32 - s.k.toNat + 1 := by
          rw [List.getD_eq_getElem _ _ hlen]
          exact hb _ (List.getElem_mem _)
        obtain ⟨n, hn⟩ : ∃ n : Nat, s.k = (n : Int) := ⟨s.k.toNat, by have := hwf.1; omega⟩
        have hk := hwf.1
        have hk2 := hwf.2.1
        rw [hn] at hk hk2
        have hrk := add_rank_eq n h (by omega)
        show max _ _ ≤ _
        rw [hn] at hold ⊢
        simp only [Int.toNat_ofNat] at hold ⊢
        rw [max_le_iff]
        refine ⟨hold, ?_⟩
        rw [hrk.2]
        omega
  · rw [add_hash_error s h hwf hidx] at hadd
    cases hadd

/-- A completed stream of adds keeps the invariant. -/
theorem addAll_reachInv (hashes : List Nat) :
    ∀ (s s' : HyperLogLog), ReachInv s → (∀ h ∈ hashes, h < 2 ^ 32) →
      addAll s hashes = .ok s' → ReachInv s' := by
  induction hashes with
  | nil =>
    intro s s' hinv _ hadd
    cases hadd
    exact hinv
  | cons h hs ih =>
    intro s s' hinv hall hadd
    unfold addAll at hadd
    cases hres : HyperLogLog_add_hash s h with
    | error e =>
      rw [hres] at hadd
      cases hadd
    | ok s1 =>
      rw [hres] at hadd
      exact ih s1 s' (add_reachInv s s1 h hinv (hall h (List.mem_cons_self _ _)) hres)
        (fun x hx => hall x (List.mem_cons_of_mem _ hx)) hadd

/-- Every reachable state satisfies the invariant. -/
theorem reachable_reachInv (s : HyperLogLog) (hr : Reachable s) : ReachInv s := by
  obtain ⟨k, seed, hashes, s0, hnew, hall, hadd⟩ := hr
  exact addAll_reachInv hashes s0 s (new_reachInv k seed s0 hnew) hall hadd

/-! ## Bounds on the estimate -/

/-- A running sum with smaller terms and a smaller start stays smaller. -/
theorem foldl_add_le_foldl_add (g g' : Nat → ℚ) (hg : ∀ i, g' i ≤ g i) (l : List Nat) :
    ∀ a a' : ℚ, a' ≤ a →
      l.foldl (fun sum i => sum + g' i) a' ≤ l.foldl (fun sum i => sum + g i) a := by
  induction l with
  | nil => intro a a' h; exact h
  | cons x xs ih =>
    intro a a' h
    exact ih _ _ (add_le_add h (hg x))

/-- A running sum of non-negative terms is at least its start. -/
theorem le_foldl_add (g : Nat → ℚ) (hg : ∀ i, 0 ≤ g i) (l : List Nat) :
    ∀ a : ℚ, a ≤ l.foldl (fun sum i => sum + g i) a := by
  induction l with
  | nil => intro a; exact le_refl a
  | cons x xs ih =>
    intro a
    exact le_trans (le_add_of_nonneg_right (hg x)) (ih _)

/-- With register 0 at zero the harmonic sum is at least `2 ^ 0 = 1`. -/
theorem harmonicSum_ge_one (s : HyperLogLog) (hpos : 0 < s.size)
    (h0 : s.registers.getD 0 0 = 0) : 1 ≤ harmonicSum s := by
  unfold harmonicSum
  obtain ⟨n, hn⟩ : ∃ n, s.size = n + 1 := ⟨s.size - 1, by omega⟩
  rw [hn, List.range_succ_eq_map, List.foldl_cons, h0]
  refine le_trans ?_ (le_foldl_add (fun i => 1.0 / (2 : ℚ) ^ (s.registers.getD i 0)) ?_ _ _)
  · norm_num
  · intro i
    have h1 : (1.0 : ℚ) = 1 := by norm_num
    rw [h1]
    positivity

/-- The bias-correction constant lies strictly between 0 and 1. -/
theorem alpha_pos_lt_one (m : Nat) : 0 < alpha m ∧ alpha m < 1 := by
  unfold alpha
  split
  · norm_num
  · norm_num
  · norm_num
  · have hm : (0 : ℚ) ≤ (m : ℚ) := Nat.cast_nonneg m
    have hd : (1 : ℚ) ≤ 1.0 + 1.079 / (m : ℚ) := by
      have : (0 : ℚ) ≤ 1.079 / (m : ℚ) := by positivity
      norm_num at this ⊢
      linarith
    constructor
    · apply div_pos (by norm_num)
      linarith
    · rw [div_lt_one (by linarith)]
      have : (0.7213 : ℚ) < 1 := by norm_num
      linarith

/-- In a state satisfying the invariant the harmonic sum is at least 1 and the
raw estimate lies strictly between 0 and `2 ^ 32`. -/
theorem rawEstimate_bounds (s : HyperLogLog) (hinv : ReachInv s) :
    1 ≤ harmonicSum s ∧ 0 < rawEstimate s ∧ rawEstimate s < 4294967296 := by
  obtain ⟨hwf, h0, _⟩ := hinv
  obtain ⟨hk1, hk2, hsize, hlen, _⟩ := hwf
  have hpow : 2 ^ s.k.toNat ≤ 2 ^ 16 := Nat.pow_le_pow_right (by norm_num) (by omega)
  have hpos : 0 < s.size := by rw [hsize]; positivity
  have hZ := harmonicSum_ge_one s hpos h0
  have ha := alpha_pos_lt_one s.size
  have hm : (s.size : ℚ) ≤ 65536 := by
    have : s.size ≤ 65536 := by omega
    exact_mod_cast this
  have hm0 : (0 : ℚ) < (s.size : ℚ) := by exact_mod_cast hpos
  have hZpos : (0 : ℚ) < harmonicSum s := by linarith
  have hinv1 : 1 / harmonicSum s ≤ 1 := by
    rw [div_le_one hZpos]
    exact hZ
  have hinvpos : 0 < 1 / harmonicSum s := by positivity
  refine ⟨hZ, ?_, ?_⟩
  · unfold rawEstimate
    exact mul_pos (mul_pos (mul_pos ha.1 hinvpos) hm0) hm0
  · unfold rawEstimate
    have h1 : alpha s.size * (1 / harmonicSum s) < 1 := by
      calc alpha s.size * (1 / harmonicSum s) ≤ alpha s.size * 1 :=
            mul_le_mul_of_nonneg_left hinv1 (le_of_lt ha.1)
        _ < 1 := by linarith [ha.2]
    have hmm : (s.size : ℚ) * (s.size : ℚ) ≤ 65536 * 65536 :=
      mul_le_mul hm hm (le_of_lt hm0) (by norm_num)
    have hmmpos : (0 : ℚ) < (s.size : ℚ) * (s.size : ℚ) := by positivity
    calc alpha s.size * (1 / harmonicSum s) * (s.size : ℚ) * (s.size : ℚ)
        = alpha s.size * (1 / harmonicSum s) * ((s.size : ℚ) * (s.size : ℚ)) := by ring
      _ < 1 * ((s.size : ℚ) * (s.size : ℚ)) := mul_lt_mul_of_pos_right h1 hmmpos
      _ ≤ 4294967296 := by linarith

theorem foldl_add_eq_sum (g : Nat → ℚ) (l : List Nat) :
    ∀ a : ℚ, l.foldl (fun sum i => sum + g i) a = a + (l.map g).sum := by
  induction l with
  | nil => intro a; simp
  | cons x xs ih =>
    intro a
    rw [List.foldl_cons, ih, List.map_cons, List.sum_cons]
    ring

theorem map_getD_range (f : Nat → ℚ) (l : List Nat) :
    (List.range l.length).map (fun i => f (l.getD i 0)) = l.map f := by
  apply List.ext_getElem
  · simp
  · intro i h1 h2
    simp only [List.length_map, List.length_range] at h1
    simp [List.getD_eq_getElem?_getD, List.getElem?_eq_getElem h1]

theorem harmonicSum_eq_sum (s : HyperLogLog) (hlen : s.registers.length = s.size) :
    harmonicSum s = (s.registers.map (fun r => 1 / (2 : ℚ) ^ r)).sum := by
  unfold harmonicSum
  rw [foldl_add_eq_sum, ← hlen]
  have h := map_getD_range (fun r => 1.0 / (2 : ℚ) ^ r) s.registers
  rw [h]
  norm_num

/-- A completed add keeps `size` and lowers no register. -/
theorem add_hash_getD_le (s s' : HyperLogLog) (h : Nat) (hwf : WF s)
    (hadd : HyperLogLog_add_hash s h = .ok s') :
    s'.size = s.size ∧ ∀ i, s.registers.getD i 0 ≤ s'.registers.getD i 0 := by
  by_cases hidx : HyperLogLog_add_index s.k h < s.size
  · rw [add_hash_eq s h hwf hidx] at hadd
    cases hadd
    have hi : HyperLogLog_add_index s.k h < s.registers.length := by
      have := hwf.2.2.2.1
      omega
    refine ⟨rfl, ?_⟩
    intro i
    simp only [List.getD_eq_getElem?_getD]
    by_cases hj : HyperLogLog_add_index s.k h = i
    · subst hj
      simp [List.getElem?_set_self hi]
    · simp [List.getElem?_set_ne hj]
  · rw [add_hash_error s h hwf hidx] at hadd
    cases hadd

/-- Larger registers give a smaller harmonic sum. -/
theorem harmonicSum_antitone (s s' : HyperLogLog) (hsize : s'.size = s.size)
    (hle : ∀ i, s.registers.getD i 0 ≤ s'.registers.getD i 0) :
    harmonicSum s' ≤ harmonicSum s := by
  unfold harmonicSum
  rw [hsize]
  apply foldl_add_le_foldl_add _ _ _ _ _ _ (le_refl _)
  intro i
  have h1 : (1.0 : ℚ) = 1 := by norm_num
  rw [h1]
  apply one_div_le_one_div_of_le (by positivity)
  exact pow_le_pow_right₀ (by norm_num) (hle i)

/-- The value returned grows with the raw estimate, for a logarithm that is
monotone and below `y - 1` on `(0, 1]`. -/
theorem cardinality_mono_of_raw (ln : ℚ → ℚ) (s s' : HyperLogLog)
    (hmono : ∀ x y : ℚ, 0 < x → x ≤ y → y ≤ 1 → ln x ≤ ln y)
    (hle : ∀ y : ℚ, 0 < y → y ≤ 1 → ln y ≤ y - 1)
    (h0 : 0 < rawEstimate s) (h1 : rawEstimate s ≤ rawEstimate s')
    (h2 : rawEstimate s' < 4294967296) :
    HyperLogLog_cardinality ln s ≤ HyperLogLog_cardinality ln s' := by
  rw [cardinality_eq_raw_or_large, cardinality_eq_raw_or_large]
  have e1 : (1.0 : ℚ) = 1 := by norm_num
  have e2 : (4294967296.0 : ℚ) = 4294967296 := by norm_num
  have e3 : (30.0 : ℚ) = 30 := by norm_num
  rw [e1, e2, e3]
  have hy' : (0 : ℚ) < 1 - rawEstimate s' / 4294967296 := by
    have : rawEstimate s' / 4294967296 < 1 := by
      rw [div_lt_one (by norm_num)]
      exact h2
    linarith
  have hyy : (1 : ℚ) - rawEstimate s' / 4294967296 ≤ 1 - rawEstimate s / 4294967296 := by
    have : rawEstimate s / 4294967296 ≤ rawEstimate s' / 4294967296 :=
      div_le_div_of_nonneg_right h1 (by norm_num)
    linarith
  have hy1 : (1 : ℚ) - rawEstimate s / 4294967296 ≤ 1 := by
    have : 0 ≤ rawEstimate s / 4294967296 := div_nonneg (le_of_lt h0) (by norm_num)
    linarith
  by_cases hs' : rawEstimate s' ≤ 1 / 30 * 4294967296
  · have hs : rawEstimate s ≤ 1 / 30 * 4294967296 := le_trans h1 hs'
    rw [if_pos hs, if_pos hs']
    exact h1
  · by_cases hs : rawEstimate s ≤ 1 / 30 * 4294967296
    · rw [if_pos hs, if_neg hs']
      have hl := hle _ hy' (le_trans hyy hy1)
      have h3 : 4294967296 * (rawEstimate s' / 4294967296) = rawEstimate s' :=
        mul_div_cancel₀ _ (by norm_num)
      linarith
    · rw [if_neg hs, if_neg hs']
      have hl := hmono _ _ hy' hyy hy1
      linarith

/-! ## Order and multiplicity of adds -/

/-- Sequencing after a completed call runs the next call. -/
theorem ok_bind (x : HyperLogLog) (f : HyperLogLog → Except HLLError HyperLogLog) :
    ((Except.ok x : Except HLLError HyperLogLog) >>= f) = f x := rfl

/-- Sequencing after a failed call keeps the failure. -/
theorem error_bind (e : HLLError) (f : HyperLogLog → Except HLLError HyperLogLog) :
    ((Except.error e : Except HLLError HyperLogLog) >>= f) = Except.error e := rfl

/-- Two max-updates of a list commute. -/
theorem set_max_comm (l : List Nat) (i j x y : Nat) (hi : i < l.length) (hj : j < l.length) :
    (l.set i (max (l.getD i 0) x)).set j (max ((l.set i (max (l.getD i 0) x)).getD j 0) y)
      = (l.set j (max (l.getD j 0) y)).set i (max ((l.set j (max (l.getD j 0) y)).getD i 0) x) := by
  simp only [List.getD_eq_getElem?_getD]
  by_cases hab : i = j
  · subst hab
    simp only [List.getElem?_set_self hi, Option.getD_some, List.set_set]
    congr 1
    rw [max_assoc, max_assoc, max_comm x]
  · rw [List.getElem?_set_ne hab, List.getElem?_set_ne (Ne.symm hab)]
    exact List.set_comm _ _ _ hab

/-- Two adds in a row give the same outcome in either order. -/
theorem add_hash_comm (s : HyperLogLog) (a b : Nat) (hwf : WF s) :
    (HyperLogLog_add_hash s a >>= fun t => HyperLogLog_add_hash t b)
      = (HyperLogLog_add_hash s b >>= fun t => HyperLogLog_add_hash t a) := by
  have hlen := hwf.2.2.2.1
  by_cases ha : HyperLogLog_add_index s.k a < s.size
  · by_cases hb : HyperLogLog_add_index s.k b < s.size
    · have ea := add_hash_eq s a hwf ha
      have eb := add_hash_eq s b hwf hb
      have wa := add_hash_wf s _ a hwf ea
      have wb := add_hash_wf s _ b hwf eb
      rw [ea, eb, ok_bind, ok_bind, add_hash_eq _ b wa hb, add_hash_eq _ a wb ha]
      have hia : HyperLogLog_add_index s.k a < s.registers.length := by omega
      have hib : HyperLogLog_add_index s.k b < s.registers.length := by omega
      have := set_max_comm s.registers _ _ (HyperLogLog_add_rank s.k a)
        (HyperLogLog_add_rank s.k b) hia hib
      simp only [this]
    · have eb := add_hash_error s b hwf hb
      have ea := add_hash_eq s a hwf ha
      have wa := add_hash_wf s _ a hwf ea
      rw [ea, eb, ok_bind, error_bind]
      exact add_hash_error _ b wa hb
  · have ea := add_hash_error s a hwf ha
    rw [ea, error_bind]
    by_cases hb : HyperLogLog_add_index s.k b < s.size
    · have eb := add_hash_eq s b hwf hb
      have wb := add_hash_wf s _ b hwf eb
      rw [eb, ok_bind]
      exact (add_hash_error _ a wb ha).symm
    · rw [add_hash_error s b hwf hb, error_bind]

/-- A stream with a first element: add it, then add the rest. -/
theorem addAll_cons (s : HyperLogLog) (h : Nat) (hs : List Nat) :
    addAll s (h :: hs) = (HyperLogLog_add_hash s h >>= fun t => addAll t hs) := rfl

/-- Reordering a stream does not change its outcome. -/
theorem addAll_perm {l1 l2 : List Nat} (hp : l1.Perm l2) :
    ∀ s : HyperLogLog, WF s → addAll s l1 = addAll s l2 := by
  induction hp with
  | nil => intro s _; rfl
  | cons x _ ih =>
    intro s hwf
    rw [addAll_cons, addAll_cons]
    cases hres : HyperLogLog_add_hash s x with
    | error e => rw [error_bind, error_bind]
    | ok s1 =>
      rw [ok_bind, ok_bind]
      exact ih s1 (add_hash_wf s s1 x hwf hres)
  | swap x y l =>
    intro s hwf
    rw [addAll_cons, addAll_cons]
    have h1 : (fun t => addAll t (x :: l))
        = fun t => (HyperLogLog_add_hash t x >>= fun u => addAll u l) := rfl
    have h2 : (fun t => addAll t (y :: l))
        = fun t => (HyperLogLog_add_hash t y >>= fun u => addAll u l) := rfl
    rw [h1, h2, ← bind_assoc, ← bind_assoc, add_hash_comm s y x hwf]
  | trans _ _ ih1 ih2 =>
    intro s hwf
    exact (ih1 s hwf).trans (ih2 s hwf)

/-- Adding first an element that occurs later in the stream changes nothing. -/
theorem addAll_cons_of_mem (s : HyperLogLog) (a : Nat) (l : List Nat) (hwf : WF s)
    (ha : a ∈ l) : addAll s (a :: l) = addAll s l := by
  have hp : l.Perm (a :: l.erase a) := List.perm_cons_erase ha
  rw [addAll_perm (List.Perm.cons a hp) s hwf, addAll_perm hp s hwf,
    addAll_cons, addAll_cons]
  cases hres : HyperLogLog_add_hash s a with
  | error e => rw [error_bind, error_bind]
  | ok s1 =>
    rw [ok_bind, addAll_cons, (add_hash_idem s s1 a hwf hres).1, ok_bind]

/-- Removing repeated elements from a stream does not change its outcome. -/
theorem addAll_dedup (l : List Nat) :
    ∀ s : HyperLogLog, WF s → addAll s l = addAll s l.dedup := by
  induction l with
  | nil => intro s _; rfl
  | cons a l ih =>
    intro s hwf
    by_cases ha : a ∈ l
    · rw [List.dedup_cons_of_mem ha, addAll_cons_of_mem s a l hwf ha]
      exact ih s hwf
    · rw [List.dedup_cons_of_not_mem ha, addAll_cons, addAll_cons]
      cases hres : HyperLogLog_add_hash s a with
      | error e => rw [error_bind, error_bind]
      | ok s1 =>
        rw [ok_bind, ok_bind]
        exact ih s1 (add_hash_wf s s1 a hwf hres)

/-- Streams with the same set of elements have the same outcome. -/
theorem addAll_of_same_set (s : HyperLogLog) (l1 l2 : List Nat) (hwf : WF s)
    (hset : ∀ x, x ∈ l1 ↔ x ∈ l2) : addAll s l1 = addAll s l2 := by
  rw [addAll_dedup l1 s hwf, addAll_dedup l2 s hwf]
  apply addAll_perm _ s hwf
  rw [List.perm_ext_iff_of_nodup (List.nodup_dedup _) (List.nodup_dedup _)]
  intro x
  rw [List.mem_dedup, List.mem_dedup]
  exact hset x

/-! ## Positions of the extreme 1-bits -/

/-- Scanning a field from its top bit finds the first 1-bit after the leading zeros. -/
theorem find_from_top (x : Nat) (w : Nat) :
    (List.range w).find? (fun i => x.testBit (w - 1 - i))
      = if leadingZerosOfField w x < w then some (leadingZerosOfField w x) else none := by
  induction w with
  | zero => rfl
  | succ w ih =>
    rw [List.range_succ_eq_map, List.find?_cons]
    by_cases hb : x.testBit w = true
    · simp [leadingZerosOfField, hb]
    · have hb' : x.testBit w = false := by simpa using hb
      have hcomp : ((fun i => x.testBit (w - i)) ∘ Nat.succ)
          = fun i => x.testBit (w - 1 - i) := by
        funext i
        simp only [Function.comp]
        congr 1
        omega
      simp only [Nat.add_sub_cancel, Nat.sub_zero, hb', List.find?_map]
      rw [hcomp, ih]
      simp only [leadingZerosOfField, hb']
      by_cases hl : leadingZerosOfField w x < w
      · have : 1 + leadingZerosOfField w x < w + 1 := by omega
        simp [hl, this, Nat.add_comm]
      · have : ¬ (1 + leadingZerosOfField w x < w + 1) := by omega
        simp [hl, this]

/-- The bit length of a non-zero number is its floor logarithm plus one. -/
theorem size_eq_log2_succ (x : Nat) (hx : x ≠ 0) : x.size = x.log2 + 1 := by
  have h1 : x.log2 < x.size := Nat.lt_size.2 (Nat.log2_self_le hx)
  have h2 : x.size ≤ x.log2 + 1 := Nat.size_le.2 Nat.lt_log2_self
  omega

/-! ## The population count `ones` -/

/-- Shifting and masking act separately on the low `w` bits and on the rest,
when the low part of the mask leaves the top `s` bits of the field clear. -/
theorem shift_and_concat (w s a r m q : Nat) (ha : a < 2 ^ w) (hs : s ≤ w)
    (hm : m < 2 ^ (w - s)) :
    ((2 ^ w * r + a) >>> s) &&& (2 ^ w * q + m)
      = 2 ^ w * ((r >>> s) &&& q) + ((a >>> s) &&& m) := by
  have hmw : m < 2 ^ w := lt_of_lt_of_le hm (Nat.pow_le_pow_right (by norm_num) (by omega))
  have hlow : (a >>> s) &&& m < 2 ^ w := Nat.and_lt_two_pow _ hmw
  apply Nat.eq_of_testBit_eq
  intro j
  rw [Nat.testBit_and, Nat.testBit_shiftRight, Nat.testBit_mul_pow_two_add _ ha,
    Nat.testBit_mul_pow_two_add _ hmw, Nat.testBit_mul_pow_two_add _ hlow,
    Nat.testBit_and, Nat.testBit_and, Nat.testBit_shiftRight, Nat.testBit_shiftRight]
  by_cases hj : j < w
  · have h1 : ¬ (s + j < w) → m.testBit j = false := by
      intro h
      apply Nat.testBit_lt_two_pow
      exact lt_of_lt_of_le hm (Nat.pow_le_pow_right (by norm_num) (by omega))
    by_cases hsj : s + j < w
    · simp [hj, hsj]
    · simp [hj, hsj, h1 hsj]
  · have hsj : ¬ (s + j < w) := by omega
    have e : s + j - w = s + (j - w) := by omega
    simp [hj, hsj, e]

/-- Masking with `0x0F0F0F0F` keeps the low nibble of each of the four bytes. -/
theorem and_mask_0F (z : Nat) :
    z &&& 0x0F0F0F0F
      = z % 16 + 256 * (z / 256 % 16 + 256 * (z / 256 / 256 % 16
          + 256 * (z / 256 / 256 / 256 % 16))) := by
  have key : ∀ y q : Nat, y &&& (2 ^ 8 * q + 15) = 2 ^ 8 * ((y / 256) &&& q) + y % 16 := by
    intro y q
    have hy : y = 2 ^ 8 * (y / 256) + y % 256 := by omega
    have h := shift_and_concat 8 0 (y % 256) (y / 256) 15 q (by omega) (by omega) (by norm_num)
    simp only [Nat.shiftRight_zero] at h
    rw [← hy] at h
    rw [h]
    have h15 : (y % 256) &&& 15 = y % 16 := by
      have := Nat.and_pow_two_sub_one_eq_mod (y % 256) 4
      norm_num at this
      exact this
    rw [h15]
  have e1 : (0x0F0F0F0F : Nat) = 2 ^ 8 * 0x0F0F0F + 15 := by norm_num
  have e2 : (0x0F0F0F : Nat) = 2 ^ 8 * 0x0F0F + 15 := by norm_num
  have e3 : (0x0F0F : Nat) = 2 ^ 8 * 0x0F + 15 := by norm_num
  have e4 : (0x0F : Nat) = 2 ^ 8 * 0 + 15 := by norm_num
  rw [e1, key, e2, key, e3, key, e4, key]
  simp only [Nat.and_zero]
  omega

/-- The last three assignments of `ones` add up four byte counts. -/
theorem fold_bytes (e0 e1 e2 e3 : Nat) (h0 : e0 ≤ 8) (h1 : e1 ≤ 8) (h2 : e2 ≤ 8)
    (h3 : e3 ≤ 8) (y3 y4 y5 : Nat)
    (hy3 : y3 = e0 + 256 * (e1 + 256 * (e2 + 256 * e3)))
    (hy4 : y4 = (y3 + y3 / 256) % 4294967296)
    (hy5 : y5 = (y4 + y4 / 65536) % 4294967296) :
    y5 % 64 = e0 + e1 + e2 + e3 := by
  have a1 : y3 / 256 = e1 + 256 * (e2 + 256 * e3) := by omega
  have a2 : y4 = (e0 + e1) + 256 * ((e1 + e2) + 256 * ((e2 + e3) + 256 * e3)) := by omega
  have a3 : y4 / 65536 = (e2 + e3) + 256 * e3 := by omega
  have a4 : y5 = (e0 + e1 + e2 + e3) + 256 * ((e1 + e2 + e3) + 256 * ((e2 + e3) + 256 * e3)) := by
    omega
  omega

/-- The third assignment of `ones` adds the two nibble counts of every byte. -/
theorem fold_nibbles (d0 d1 d2 d3 d4 d5 d6 d7 : Nat)
    (h0 : d0 ≤ 4) (h1 : d1 ≤ 4) (h2 : d2 ≤ 4) (h3 : d3 ≤ 4)
    (h4 : d4 ≤ 4) (h5 : d5 ≤ 4) (h6 : d6 ≤ 4) (h7 : d7 ≤ 4) (y z : Nat)
    (hy : y = d0 + 16 * (d1 + 16 * (d2 + 16 * (d3 + 16 * (d4 + 16 * (d5 + 16 * (d6 + 16 * d7)))))))
    (hz : z = (y / 16 + y) % 4294967296) :
    z &&& 0x0F0F0F0F
      = (d0 + d1) + 256 * ((d2 + d3) + 256 * ((d4 + d5) + 256 * (d6 + d7))) := by
  have a1 : y / 16 = d1 + 16 * (d2 + 16 * (d3 + 16 * (d4 + 16 * (d5 + 16 * (d6 + 16 * d7))))) := by
    omega
  have a2 : z = (d0 + d1) + 16 * ((d1 + d2) + 16 * ((d2 + d3) + 16 * ((d3 + d4)
      + 16 * ((d4 + d5) + 16 * ((d5 + d6) + 16 * ((d6 + d7) + 16 * d7)))))) := by
    omega
  have b1 : z / 256 = (d2 + d3) + 16 * ((d3 + d4)
      + 16 * ((d4 + d5) + 16 * ((d5 + d6) + 16 * ((d6 + d7) + 16 * d7)))) := by omega
  have b2 : z / 256 / 256 = (d4 + d5) + 16 * ((d5 + d6) + 16 * ((d6 + d7) + 16 * d7)) := by
    omega
  have b3 : z / 256 / 256 / 256 = (d6 + d7) + 16 * d7 := by omega
  have c0 : z % 16 = d0 + d1 := by omega
  have c1 : z / 256 % 16 = d2 + d3 := by omega
  have c2 : z / 256 / 256 % 16 = d4 + d5 := by omega
  have c3 : z / 256 / 256 / 256 % 16 = d6 + d7 := by omega
  rw [and_mask_0F, c0, c1, c2, c3]

/-- The last four assignments of `ones` add up eight nibble counts. -/
theorem fold_tail (d0 d1 d2 d3 d4 d5 d6 d7 : Nat)
    (h0 : d0 ≤ 4) (h1 : d1 ≤ 4) (h2 : d2 ≤ 4) (h3 : d3 ≤ 4)
    (h4 : d4 ≤ 4) (h5 : d5 ≤ 4) (h6 : d6 ≤ 4) (h7 : d7 ≤ 4) (y y3 y4 y5 : Nat)
    (hy : y = d0 + 16 * (d1 + 16 * (d2 + 16 * (d3 + 16 * (d4 + 16 * (d5 + 16 * (d6 + 16 * d7)))))))
    (hy3 : y3 = (((y >>> 4) + y) % U32) &&& 0x0F0F0F0F)
    (hy4 : y4 = (y3 + (y3 >>> 8)) % U32)
    (hy5 : y5 = (y4 + (y4 >>> 16)) % U32) :
    y5 &&& 0x3F = d0 + d1 + d2 + d3 + d4 + d5 + d6 + d7 := by
  have e63 : y5 &&& 0x3F = y5 % 64 := by
    have := Nat.and_pow_two_sub_one_eq_mod y5 6
    norm_num at this
    exact this
  have hz : ((y >>> 4) + y) % U32 = (y / 16 + y) % 4294967296 := by
    rw [Nat.shiftRight_eq_div_pow]
    rfl
  rw [hz, fold_nibbles d0 d1 d2 d3 d4 d5 d6 d7 h0 h1 h2 h3 h4 h5 h6 h7 y _ hy rfl] at hy3
  have s8 : y3 >>> 8 = y3 / 256 := by rw [Nat.shiftRight_eq_div_pow]
  have s16 : y4 >>> 16 = y4 / 65536 := by rw [Nat.shiftRight_eq_div_pow]
  rw [s8] at hy4
  rw [s16] at hy5
  rw [e63, fold_bytes (d0 + d1) (d2 + d3) (d4 + d5) (d6 + d7) (by omega) (by omega) (by omega)
    (by omega) y3 y4 y5 hy3 hy4 hy5]
  omega

/-- The first two assignments of `ones` act on the lowest nibble and on the rest separately. -/
theorem pairSums_cons (n r a : Nat) (ha : a < 16) :
    pairSums (n + 1) (2 ^ 4 * r + a) = nibbleCount a + 16 * pairSums n r := by
  have ha' : a < 2 ^ 4 := by omega
  unfold pairSums nibbleCount
  simp only [nibbleMask]
  rw [shift_and_concat 4 1 a r 5 (nibbleMask 5 n) ha' (by omega) (by norm_num)]
  have ht1 : (r >>> 1) &&& nibbleMask 5 n ≤ r :=
    le_trans Nat.and_le_left (by rw [Nat.shiftRight_eq_div_pow]; exact Nat.div_le_self _ _)
  have ht2 : (a >>> 1) &&& 5 ≤ a :=
    le_trans Nat.and_le_left (by rw [Nat.shiftRight_eq_div_pow]; exact Nat.div_le_self _ _)
  have hsub : 2 ^ 4 * r + a - (2 ^ 4 * ((r >>> 1) &&& nibbleMask 5 n) + ((a >>> 1) &&& 5))
      = 2 ^ 4 * (r - ((r >>> 1) &&& nibbleMask 5 n)) + (a - ((a >>> 1) &&& 5)) := by
    rw [Nat.mul_sub]
    have := Nat.mul_le_mul_left (2 ^ 4) ht1
    omega
  rw [hsub]
  have hya : a - ((a >>> 1) &&& 5) < 2 ^ 4 := by omega
  rw [shift_and_concat 4 2 _ _ 3 (nibbleMask 3 n) hya (by omega) (by norm_num)]
  have h0 := shift_and_concat 4 0 (a - ((a >>> 1) &&& 5)) (r - ((r >>> 1) &&& nibbleMask 5 n))
    3 (nibbleMask 3 n) hya (by omega) (by norm_num)
  simp only [Nat.shiftRight_zero] at h0
  rw [h0]
  omega

/-- The first two assignments of `ones` replace every nibble by its own count. -/
theorem pairSums_eq_nibbleMap (n : Nat) : ∀ x, pairSums n x = nibbleMap nibbleCount n x := by
  induction n with
  | zero =>
    intro x
    simp [pairSums, nibbleMask, nibbleMap]
  | succ n ih =>
    intro x
    have hx : x = 2 ^ 4 * (x / 16) + x % 16 := by omega
    conv_lhs => rw [hx]
    rw [pairSums_cons n (x / 16) (x % 16) (by omega), ih]
    rfl

/-- On a nibble the first two assignments give its population count, at most 4. -/
theorem nibbleCount_eq (a : Nat) (ha : a < 16) :
    nibbleCount a = popCount 4 a ∧ nibbleCount a ≤ 4 := by
  interval_cases a <;> decide

/-- The population count splits into the lowest nibble and the rest. -/
theorem popCount_add (w x : Nat) :
    popCount (4 + w) x = popCount 4 (x % 16) + popCount w (x / 16) := by
  unfold popCount
  rw [List.range_add, List.countP_append, List.countP_map]
  congr 1
  · apply List.countP_congr
    intro i hi
    have hi4 : i < 4 := List.mem_range.1 hi
    have := Nat.testBit_mod_two_pow x 4 i
    norm_num at this
    simp [this, hi4]
  · apply List.countP_congr
    intro i _
    have h := Nat.testBit_shiftRight (i := 4) (j := i) x
    rw [Nat.shiftRight_eq_div_pow] at h
    norm_num at h
    simp [h]

/-- The population count is the sum of the population counts of the nibbles. -/
theorem popCount_eq_nibbleSum (n : Nat) :
    ∀ x, popCount (4 * n) x = nibbleSum (popCount 4) n x := by
  induction n with
  | zero => intro x; rfl
  | succ n ih =>
    intro x
    have : 4 * (n + 1) = 4 + 4 * n := by ring
    rw [this, popCount_add, ih]
    rfl

/-- A sum over nibbles only depends on the summand below 16. -/
theorem nibbleSum_congr (g g' : Nat → Nat) (hg : ∀ a, a < 16 → g a = g' a) (n : Nat) :
    ∀ x, nibbleSum g n x = nibbleSum g' n x := by
  induction n with
  | zero => intro x; rfl
  | succ n ih =>
    intro x
    simp only [nibbleSum]
    rw [hg _ (Nat.mod_lt _ (by norm_num)), ih]

/-- The five assignments of `ones`, named. -/
theorem ones_unfold (x x1 x2 x3 x4 x5 : Nat)
    (h1 : x1 = (x + U32 - ((x >>> 1) &&& 0x55555555)) % U32)
    (h2 : x2 = (((x1 >>> 2) &&& 0x33333333) + (x1 &&& 0x33333333)) % U32)
    (h3 : x3 = (((x2 >>> 4) + x2) % U32) &&& 0x0F0F0F0F)
    (h4 : x4 = (x3 + (x3 >>> 8)) % U32)
    (h5 : x5 = (x4 + (x4 >>> 16)) % U32) :
    ones x = x5 &&& 0x3F := by
  subst h1 h2 h3 h4 h5
  rfl

/-- On 32-bit values the first two assignments of `ones` do not wrap. -/
theorem ones_first_two (x : Nat) (hx : x < 2 ^ 32) :
    (((((x + U32 - ((x >>> 1) &&& 0x55555555)) % U32) >>> 2) &&& 0x33333333)
      + (((x + U32 - ((x >>> 1) &&& 0x55555555)) % U32) &&& 0x33333333)) % U32
      = pairSums 8 x := by
  have hm5 : nibbleMask 5 8 = 0x55555555 := by decide
  have hm3 : nibbleMask 3 8 = 0x33333333 := by decide
  have ht : (x >>> 1) &&& 0x55555555 ≤ x :=
    le_trans Nat.and_le_left (by rw [Nat.shiftRight_eq_div_pow]; exact Nat.div_le_self _ _)
  have h1 : (x + U32 - ((x >>> 1) &&& 0x55555555)) % U32 = x - ((x >>> 1) &&& 0x55555555) := by
    unfold U32
    omega
  rw [h1]
  have hA : ((x - ((x >>> 1) &&& 0x55555555)) >>> 2) &&& 0x33333333 ≤ 0x33333333 :=
    Nat.and_le_right
  have hB : (x - ((x >>> 1) &&& 0x55555555)) &&& 0x33333333 ≤ 0x33333333 := Nat.and_le_right
  rw [Nat.mod_eq_of_lt (by unfold U32; omega)]
  unfold pairSums
  rw [hm5, hm3]

/-- On 32-bit values `ones` is the sum of the nibble counts. -/
theorem ones_eq_nibbleSum (x : Nat) (hx : x < 2 ^ 32) :
    ones x = nibbleSum nibbleCount 8 x := by
  have hb : ∀ a, nibbleCount (a % 16) ≤ 4 := fun a =>
    (nibbleCount_eq _ (Nat.mod_lt _ (by norm_num))).2
  have hy : pairSums 8 x = nibbleMap nibbleCount 8 x := pairSums_eq_nibbleMap 8 x
  simp only [nibbleMap, Nat.mul_zero, Nat.add_zero] at hy
  rw [ones_unfold x _ _ _ _ _ rfl rfl rfl rfl rfl, ones_first_two x hx]
  simp only [nibbleSum, Nat.add_zero]
  rw [fold_tail _ _ _ _ _ _ _ _ (hb _) (hb _) (hb _) (hb _) (hb _) (hb _) (hb _) (hb _)
    (pairSums 8 x) _ _ _ hy rfl rfl rfl]
  omega

/-! ## Streams and the register-wise maximum -/

/-- Adding a concatenated stream is adding its first part, then its second. -/
theorem addAll_append (A B : List Nat) :
    ∀ s : HyperLogLog, addAll s (A ++ B) = (addAll s A >>= fun t => addAll t B) := by
  induction A with
  | nil => intro s; rfl
  | cons a A ih =>
    intro s
    rw [List.cons_append, addAll_cons, addAll_cons, bind_assoc]
    congr 1
    funext t
    exact ih t

/-- A completed stream keeps the state well formed, keeps `k` and `size`, and
lowers no register. -/
theorem addAll_mono (B : List Nat) :
    ∀ s sB : HyperLogLog, WF s → addAll s B = .ok sB →
      WF sB ∧ sB.k = s.k ∧ sB.size = s.size ∧
        ∀ i, s.registers.getD i 0 ≤ sB.registers.getD i 0 := by
  induction B with
  | nil =>
    intro s sB hwf h
    cases h
    exact ⟨hwf, rfl, rfl, fun _ => le_refl _⟩
  | cons b B ih =>
    intro s sB hwf h
    rw [addAll_cons] at h
    cases hres : HyperLogLog_add_hash s b with
    | error e =>
      rw [hres, error_bind] at h
      cases h
    | ok s1 =>
      rw [hres, ok_bind] at h
      have hid := add_hash_idem s s1 b hwf hres
      have hle := add_hash_getD_le s s1 b hwf hres
      obtain ⟨w, hk, hsz, hm⟩ := ih s1 sB (add_hash_wf s s1 b hwf hres) h
      exact ⟨w, by rw [hk, hid.2.2.1], by rw [hsz, hid.2.2.2],
        fun i => le_trans (hle.2 i) (hm i)⟩

/-- Reading a list after one write. -/
theorem getD_set_max (l : List Nat) (i j v : Nat) (hi : i < l.length) :
    (l.set i v).getD j 0 = if j = i then v else l.getD j 0 := by
  simp only [List.getD_eq_getElem?_getD]
  by_cases h : j = i
  · subst h
    simp [List.getElem?_set_self hi]
  · simp [h, List.getElem?_set_ne (Ne.symm h)]

/-- With the index inside the array the add completes, and the registers after
it are read off pointwise. -/
theorem add_hash_ok_getD (s : HyperLogLog) (h : Nat) (hwf : WF s)
    (hidx : HyperLogLog_add_index s.k h < s.size) :
    ∃ s1, HyperLogLog_add_hash s h = .ok s1 ∧ WF s1 ∧ s1.k = s.k ∧
      s1.registers.length = s.registers.length ∧
      ∀ i, s1.registers.getD i 0
        = if i = HyperLogLog_add_index s.k h then
            max (s.registers.getD (HyperLogLog_add_index s.k h) 0) (HyperLogLog_add_rank s.k h)
          else s.registers.getD i 0 := by
  have e := add_hash_eq s h hwf hidx
  have hl : HyperLogLog_add_index s.k h < s.registers.length := by
    have := hwf.2.2.2.1
    omega
  refine ⟨_, e, add_hash_wf s _ h hwf e, rfl, by simp, ?_⟩
  intro i
  exact getD_set_max _ _ _ _ hl

/-- Adding a stream to a state that dominates another gives the register-wise
maximum of that state and of the stream added to the other. -/
theorem addAll_max (B : List Nat) :
    ∀ s t sB : HyperLogLog, WF s → WF t → s.k = t.k →
      (∀ i, s.registers.getD i 0 ≤ t.registers.getD i 0) → addAll s B = .ok sB →
      ∃ tB, addAll t B = .ok tB ∧ tB.registers.length = t.registers.length ∧
        ∀ i, tB.registers.getD i 0 = max (t.registers.getD i 0) (sB.registers.getD i 0) := by
  induction B with
  | nil =>
    intro s t sB _ _ _ hle h
    cases h
    exact ⟨t, rfl, rfl, fun i => (max_eq_left (hle i)).symm⟩
  | cons b B ih =>
    intro s t sB hs ht hk hle h
    rw [addAll_cons] at h
    have hsz : s.size = t.size := by rw [hs.2.2.1, ht.2.2.1, hk]
    by_cases hidx : HyperLogLog_add_index s.k b < s.size
    · have hidx' : HyperLogLog_add_index t.k b < t.size := by rw [← hk, ← hsz]; exact hidx
      obtain ⟨s1, es, ws, hks, _, hgs⟩ := add_hash_ok_getD s b hs hidx
      obtain ⟨t1, et, wt, hkt, hlt, hgt⟩ := add_hash_ok_getD t b ht hidx'
      rw [es, ok_bind] at h
      have hle1 : ∀ i, s1.registers.getD i 0 ≤ t1.registers.getD i 0 := by
        intro i
        rw [hgs i, hgt i, ← hk]
        have := hle i
        have := hle (HyperLogLog_add_index s.k b)
        split <;> omega
      obtain ⟨tB, htB, hlen, hmax⟩ := ih s1 t1 sB ws wt (by rw [hks, hkt, hk]) hle1 h
      have hmono := (addAll_mono B s1 sB ws h).2.2.2
      refine ⟨tB, by rw [addAll_cons, et, ok_bind]; exact htB, by rw [hlen, hlt], ?_⟩
      intro i
      rw [hmax i, hgt i, ← hk]
      have h2 := hmono i
      rw [hgs i] at h2
      split
      · rename_i hi
        rw [if_pos hi] at h2
        subst hi
        omega
      · rfl
    · rw [add_hash_error s b hs hidx, error_bind] at h
      cases h

/-- The registers after a concatenated stream are the register-wise maximum of
the registers after each part, all three started from the same state. -/
theorem addAll_append_registers (s sA sB : HyperLogLog) (A B : List Nat) (hwf : WF s)
    (hA : addAll s A = .ok sA) (hB : addAll s B = .ok sB) :
    ∃ sAB, addAll s (A ++ B) = .ok sAB ∧
      sAB.registers = List.zipWith max sA.registers sB.registers := by
  obtain ⟨wA, hkA, hszA, hmA⟩ := addAll_mono A s sA hwf hA
  obtain ⟨wB, hkB, hszB, _⟩ := addAll_mono B s sB hwf hB
  obtain ⟨sAB, hAB, hlen, hmax⟩ := addAll_max B s sA sB hwf wA hkA.symm hmA hB
  refine ⟨sAB, by rw [addAll_append, hA, ok_bind]; exact hAB, ?_⟩
  have hlA := wA.2.2.2.1
  have hlB := wB.2.2.2.1
  apply List.ext_getElem
  · rw [List.length_zipWith, hlen, hlA, hlB, hszA, hszB, min_self]
  · intro i h1 h2
    have h := hmax i
    have hiA : i < sA.registers.length := by omega
    have hiB : i < sB.registers.length := by
      rw [List.length_zipWith] at h2
      omega
    rw [List.getD_eq_getElem _ _ h1, List.getD_eq_getElem _ _ hiA,
      List.getD_eq_getElem _ _ hiB] at h
    rw [h, List.getElem_zipWith]

/-! ## Construction -/

/-- On the value held in `self->k`, lines 39-49 fail with `ValueError` exactly
when it is below 2 or above 16. -/
theorem new_field_fails_iff_out_of_range (k : Int) (seed : Nat) :
    (HyperLogLog_new_field k seed = .error .valueError ↔ (k < 2 ∨ k > 16)) ∧
    ((2 ≤ k ∧ k ≤ 16) ↔ ∃ s, HyperLogLog_new_field k seed = .ok s) := by
  refine ⟨?_, ?_⟩
  · unfold HyperLogLog_new_field
    by_cases h : k < 2 ∨ k > 16
    · simp [h]
    · simp [h]
  · unfold HyperLogLog_new_field
    by_cases h : k < 2 ∨ k > 16
    · simp only [h, if_true]
      constructor
      · intro h2; omega
      · rintro ⟨s, hs⟩; cases hs
    · simp only [h, if_false]
      constructor
      · intro _; exact ⟨_, rfl⟩
      · intro _; omega

/-- C1: construction does not fail for every precision outside `[2, 16]`: the
precisions `65538` and `-65534` reach the range test as `k = 2` and give a
4-register estimator, although `1` and `17` fail with `ValueError` and `2` and
`16` succeed. -/
theorem new_accepts_precision_outside_range :
    HyperLogLog_new 65538 314
      = .ok { k := 2, seed := 314, size := 4, registers := [0, 0, 0, 0] } ∧
    HyperLogLog_new (-65534) 314
      = .ok { k := 2, seed := 314, size := 4, registers := [0, 0, 0, 0] } ∧
    storeThroughShort 65538 = 2 ∧
    ¬ (2 ≤ (65538 : Int) ∧ (65538 : Int) ≤ 16) ∧
    HyperLogLog_new 1 314 = .error .valueError ∧
    HyperLogLog_new 17 314 = .error .valueError ∧
    HyperLogLog_new 2 314
      = .ok { k := 2, seed := 314, size := 4, registers := [0, 0, 0, 0] } ∧
    (∃ s, HyperLogLog_new 16 314 = .ok s ∧ s.size = 65536) := by
  refine ⟨rfl, rfl, rfl, by decide, rfl, rfl, rfl, ⟨_, rfl, rfl⟩⟩

/-- C2: for every `k` in `[2, 16]` a freshly constructed estimator reports
`size()` equal to `2 ^ k` and holds exactly `2 ^ k` registers, all zero. -/
theorem new_size_and_zero_registers (k : Int) (seed : Nat) (hk : 2 ≤ k ∧ k ≤ 16) :
    ∃ s, HyperLogLog_new k seed = .ok s ∧
      HyperLogLog_size s = 2 ^ k.toNat ∧
      s.size = 2 ^ k.toNat ∧
      s.registers.length = 2 ^ k.toNat ∧
      HyperLogLog_registers s = List.replicate (2 ^ k.toNat) 0 ∧
      (∀ i, i < 2 ^ k.toNat → s.registers[i]? = some 0) ∧
      s.k = k ∧ s.seed = seed := by
  obtain ⟨n, rfl⟩ : ∃ n : Nat, k = (n : Int) := ⟨k.toNat, by omega⟩
  have hn : 2 ≤ n ∧ n ≤ 16 := by omega
  have hnot : ¬ (((n : Int) < 2) ∨ ((n : Int) > 16)) := by omega
  have hle : 2 ^ n ≤ 2 ^ 16 := Nat.pow_le_pow_right (by norm_num) hn.2
  have hsz : (1 <<< n) % U32 = 2 ^ n := by
    rw [Nat.shiftLeft_eq, one_mul]
    apply Nat.mod_eq_of_lt
    unfold U32
    omega
  refine ⟨_, by
    rw [new_of_short_range _ seed (by omega) (by omega)]
    simp only [HyperLogLog_new_field, hnot, if_false]
    rfl, ?_⟩
  simp only [Int.toNat_ofNat, hsz, HyperLogLog_size, HyperLogLog_registers,
    List.length_replicate, List.take_replicate, min_self]
  refine ⟨?_, trivial, trivial, trivial, ?_, trivial, trivial⟩
  · have : 2 ^ n < 2147483648 := by omega
    simp [this]
  · intro i hi
    simp [List.getElem?_replicate, hi]

/-- Witness for C2 at `k = 2`, seed 314. -/
theorem new_size_and_zero_registers_witness :
    ∃ s, HyperLogLog_new 2 314 = .ok s ∧
      HyperLogLog_size s = 2 ^ (2 : Int).toNat ∧
      s.size = 2 ^ (2 : Int).toNat ∧
      s.registers.length = 2 ^ (2 : Int).toNat ∧
      HyperLogLog_registers s = List.replicate (2 ^ (2 : Int).toNat) 0 ∧
      (∀ i, i < 2 ^ (2 : Int).toNat → s.registers[i]? = some 0) ∧
      s.k = 2 ∧ s.seed = 314 :=
  new_size_and_zero_registers 2 314 (by decide)

/-! ## Ingestion -/

/-- C3: the index `HyperLogLog_add` selects is not `h >> (32 - k)`: for every
32-bit hash and `k` in `[2, 16]` it is the top `k` bits of the hash plus one. -/
theorem add_index_is_top_bits_plus_one (k : Int) (h : Nat) (hk : 2 ≤ k ∧ k ≤ 16)
    (hh : h < 2 ^ 32) :
    HyperLogLog_add_index k h = (h >>> (32 - k.toNat)) + 1 ∧
    HyperLogLog_add_index k h ≠ h >>> (32 - k.toNat) := by
  have h1 := (add_index_eq k h hk hh).1
  rw [Nat.shiftRight_eq_div_pow]
  omega

/-- Witness for C3 at `k = 2`, hash `0`: the top bits are `0`, the index is `1`. -/
theorem add_index_is_top_bits_plus_one_witness :
    HyperLogLog_add_index 2 0 = 1 ∧ (0 : Nat) >>> 30 = 0 ∧
    HyperLogLog_add_index 2 0 ≠ 0 >>> (32 - (2 : Int).toNat) :=
  ⟨by decide, by decide, (add_index_is_top_bits_plus_one 2 0 (by decide) (by decide)).2⟩

/-- C4: the index can leave the array: for every well-formed state and every
32-bit hash whose top `k` bits are all ones, the index equals `size = 2 ^ k`,
one past the last register, and the register access is out of bounds. -/
theorem add_index_out_of_bounds (s : HyperLogLog) (h : Nat) (hwf : WF s) (hh : h < 2 ^ 32)
    (htop : 2 ^ 32 - 2 ^ (32 - s.k.toNat) ≤ h) :
    HyperLogLog_add_index s.k h = s.size ∧
    s.registers[HyperLogLog_add_index s.k h]? = none ∧
    HyperLogLog_add_hash s h = .error .outOfBounds := by
  obtain ⟨hi, hlt⟩ := add_index_eq s.k h ⟨hwf.1, hwf.2.1⟩ hh
  have hk1 := hwf.1
  have hk2 := hwf.2.1
  have hsize := hwf.2.2.1
  have hlen := hwf.2.2.2.1
  have hpow : (2 : Nat) ^ 32 = 2 ^ s.k.toNat * 2 ^ (32 - s.k.toNat) := by
    rw [← pow_add]
    congr 1
    omega
  have hge : 2 ^ s.k.toNat - 1 ≤ h / 2 ^ (32 - s.k.toNat) := by
    rw [Nat.le_div_iff_mul_le (by positivity), Nat.sub_mul, one_mul, ← hpow]
    exact htop
  have hpos : 0 < 2 ^ s.k.toNat := by positivity
  have hidx : HyperLogLog_add_index s.k h = s.size := by omega
  refine ⟨hidx, List.getElem?_eq_none (by omega), add_hash_error s h hwf (by omega)⟩

/-- Witness for C4 at `k = 2`, hash `0xFFFFFFFF`: index `4` in a 4-register array. -/
theorem add_index_out_of_bounds_witness :
    HyperLogLog_add_index 2 4294967295 = 4 ∧
    ([0, 0, 0, 0] : List Nat)[HyperLogLog_add_index 2 4294967295]? = none ∧
    HyperLogLog_add_hash { k := 2, seed := 314, size := 4, registers := [0, 0, 0, 0] }
      4294967295 = .error .outOfBounds :=
  add_index_out_of_bounds { k := 2, seed := 314, size := 4, registers := [0, 0, 0, 0] }
    4294967295 (by unfold WF; decide) (by decide) (by decide)

/-- C5: for every 32-bit hash and `k` in `[2, 16]` the argument of
`leadingZeroCount` is the low `32 - k` bits of the hash, the unsigned
subtraction of `k` does not wrap, the rank is 1 plus the number of leading
zero bits of that `(32 - k)`-bit field, it is `32 - k + 1` for an all-zero
field, and it lies in `[1, 32 - k + 1]`. -/
theorem add_rank_leading_zeros (k : Int) (h : Nat) (hk : 2 ≤ k ∧ k ≤ 16) (_hh : h < 2 ^ 32) :
    HyperLogLog_add_field k h = h % 2 ^ (32 - k.toNat) ∧
    k.toNat ≤ leadingZeroCount (HyperLogLog_add_field k h) ∧
    HyperLogLog_add_rank k h = leadingZeroCount (HyperLogLog_add_field k h) - k.toNat + 1 ∧
    HyperLogLog_add_rank k h
      = 1 + leadingZerosOfField (32 - k.toNat) (h % 2 ^ (32 - k.toNat)) ∧
    (h % 2 ^ (32 - k.toNat) = 0 → HyperLogLog_add_rank k h = 32 - k.toNat + 1) ∧
    1 ≤ HyperLogLog_add_rank k h ∧ HyperLogLog_add_rank k h ≤ 32 - k.toNat + 1 := by
  obtain ⟨n, rfl⟩ : ∃ n : Nat, k = (n : Int) := ⟨k.toNat, by omega⟩
  simp only [Int.toNat_ofNat]
  have hn : 2 ≤ n ∧ n ≤ 16 := by omega
  have hf : HyperLogLog_add_field (n : Int) h = h % 2 ^ (32 - n) := by
    unfold HyperLogLog_add_field
    simpa using add_field_eq n h (by omega)
  have hlt : h % 2 ^ (32 - n) < 2 ^ (32 - n) := Nat.mod_lt _ (by positivity)
  have hlt32 : h % 2 ^ (32 - n) < 2 ^ 32 :=
    lt_of_lt_of_le hlt (Nat.pow_le_pow_right (by norm_num) (by omega))
  obtain ⟨hsz, hr⟩ := add_rank_eq n h hn
  have hl := leadingZeroCount_eq _ hlt32
  have hs := leadingZerosOfField_eq _ _ hlt
  rw [hf, hr, hl, hs]
  refine ⟨rfl, by omega, rfl, by omega, ?_, by omega, by omega⟩
  intro h0
  rw [h0]
  simp

/-- Witness for C5 at `k = 14`, hash `5`: the 18-bit field `5` has 15 leading
zeros, so the rank is 16. -/
theorem add_rank_leading_zeros_witness :
    HyperLogLog_add_rank 14 5 = 16 ∧
    HyperLogLog_add_rank 14 5
      = 1 + leadingZerosOfField (32 - (14 : Int).toNat) (5 % 2 ^ (32 - (14 : Int).toNat)) ∧
    (14 : Int).toNat ≤ leadingZeroCount (HyperLogLog_add_field 14 5) :=
  ⟨by decide, (add_rank_leading_zeros 14 5 (by decide) (by decide)).2.2.2.1,
    (add_rank_leading_zeros 14 5 (by decide) (by decide)).2.1⟩

/-- C6: the update misses the claimed register.  On the fresh 4-register
estimator, hash `0xFFFFFFFF` has top bits `3` and rank `1`, but the index
computed is `4`, outside the array, and no state with register 3 at
`max(0, 1)` results; hash `0` has top bits `0` and rank `31`, and the add
writes register 1 and leaves register 0 at `0`. -/
theorem add_misses_register_of_top_bits :
    4294967295 >>> (32 - 2) = 3 ∧
    HyperLogLog_add_rank 2 4294967295 = 1 ∧
    HyperLogLog_add_index 2 4294967295 = 4 ∧
    ([0, 0, 0, 0] : List Nat).length = 4 ∧
    HyperLogLog_add_hash { k := 2, seed := 314, size := 4, registers := [0, 0, 0, 0] }
      4294967295 = .error .outOfBounds ∧
    0 >>> (32 - 2) = 0 ∧
    HyperLogLog_add_rank 2 0 = 31 ∧
    HyperLogLog_add_hash { k := 2, seed := 314, size := 4, registers := [0, 0, 0, 0] } 0
      = .ok { k := 2, seed := 314, size := 4, registers := [0, 31, 0, 0] } := by
  refine ⟨by decide, by decide, by decide, rfl, rfl, by decide, by decide, rfl⟩

/-- C7: for every well-formed state, every element and every `n ≥ 1`, adding
the element `n` times gives exactly the result of adding it once: the same
register array, and so the same `cardinality()`. -/
theorem add_repeated_eq_add_once (murmur : List Nat → Nat → Nat) (ln : ℚ → ℚ)
    (s : HyperLogLog) (data : List Nat) (n : Nat) (hwf : WF s) (hn : 1 ≤ n) :
    addRepeated murmur s data n = HyperLogLog_add murmur s data ∧
    (addRepeated murmur s data n).map (HyperLogLog_cardinality ln)
      = (HyperLogLog_add murmur s data).map (HyperLogLog_cardinality ln) := by
  have key : addRepeated murmur s data n = HyperLogLog_add murmur s data := by
    induction n with
    | zero => omega
    | succ m ih =>
      rcases Nat.eq_zero_or_pos m with hm | hm
      · subst hm
        rfl
      · have ih' := ih hm
        show (addRepeated murmur s data m >>= fun t => HyperLogLog_add murmur t data) = _
        rw [ih']
        cases hres : HyperLogLog_add murmur s data with
        | error e => rfl
        | ok s1 =>
          have hid := add_hash_idem s s1 _ hwf hres
          show HyperLogLog_add murmur s1 data = _
          unfold HyperLogLog_add
          rw [hid.2.1]
          exact hid.1
  exact ⟨key, by rw [key]⟩

/-- Witness for C7: three adds of an element hashing to `0` at `k = 2`. -/
theorem add_repeated_eq_add_once_witness :
    addRepeated (fun _ _ => 0) { k := 2, seed := 314, size := 4, registers := [0, 0, 0, 0] } [97] 3
      = .ok { k := 2, seed := 314, size := 4, registers := [0, 31, 0, 0] } :=
  (add_repeated_eq_add_once (fun _ _ => 0) (fun _ => 0)
    { k := 2, seed := 314, size := 4, registers := [0, 0, 0, 0] } [97] 3
    (by unfold WF; decide) (by decide)).1.trans rfl

/-- C8: registers never decrease: after a completed add every register holds
at least the value it held before; the add completes whenever its index is
inside the array. -/
theorem add_registers_never_decrease (s : HyperLogLog) (h : Nat) (hwf : WF s) (_hh : h < 2 ^ 32) :
    (HyperLogLog_add_index s.k h < s.size → ∃ s', HyperLogLog_add_hash s h = .ok s') ∧
    ∀ s', HyperLogLog_add_hash s h = .ok s' →
      s'.registers.length = s.registers.length ∧
      ∀ i, s.registers.getD i 0 ≤ s'.registers.getD i 0 := by
  refine ⟨fun hidx => ⟨_, add_hash_eq s h hwf hidx⟩, ?_⟩
  intro s' hadd
  by_cases hidx : HyperLogLog_add_index s.k h < s.size
  · rw [add_hash_eq s h hwf hidx] at hadd
    cases hadd
    have hi : HyperLogLog_add_index s.k h < s.registers.length := by
      have := hwf.2.2.2.1
      omega
    refine ⟨by simp, ?_⟩
    intro i
    simp only [List.getD_eq_getElem?_getD]
    by_cases hj : HyperLogLog_add_index s.k h = i
    · subst hj
      simp [List.getElem?_set_self hi]
    · simp [List.getElem?_set_ne hj]
  · rw [add_hash_error s h hwf hidx] at hadd
    cases hadd

/-- Witness for C8: hash `0` on `[0, 5, 31, 0]` at `k = 2` raises register 1
from 5 to 31 and lowers none. -/
theorem add_registers_never_decrease_witness :
    ([0, 31, 31, 0] : List Nat).length = ([0, 5, 31, 0] : List Nat).length ∧
    ∀ i, ([0, 5, 31, 0] : List Nat).getD i 0 ≤ ([0, 31, 31, 0] : List Nat).getD i 0 :=
  (add_registers_never_decrease
    { k := 2, seed := 314, size := 4, registers := [0, 5, 31, 0] } 0
    (by unfold WF; decide) (by decide)).2
    { k := 2, seed := 314, size := 4, registers := [0, 31, 31, 0] } rfl

/-! ## Estimation -/

/-- C9: the small-range correction never applies.  The zero count computed by
`HyperLogLog_cardinality` is 0 in every state, so the freshly constructed
estimator with `k = 2`, whose four registers are all zero and whose raw
estimate is below `2.5 * 4`, returns the raw estimate `57704 / 25395` and not
the linear-counting value. -/
theorem cardinality_fresh_returns_raw_estimate :
    HyperLogLog_new 2 314
      = .ok { k := 2, seed := 314, size := 4, registers := [0, 0, 0, 0] } ∧
    ([0, 0, 0, 0] : List Nat).count 0 = 4 ∧
    (∀ s, countZeros s = 0) ∧
    rawEstimate { k := 2, seed := 314, size := 4, registers := [0, 0, 0, 0] } ≤ 2.5 * 4 ∧
    ∀ ln : ℚ → ℚ,
      HyperLogLog_cardinality ln { k := 2, seed := 314, size := 4, registers := [0, 0, 0, 0] }
        = 57704 / 25395 ∧
      HyperLogLog_cardinality ln { k := 2, seed := 314, size := 4, registers := [0, 0, 0, 0] }
        ≠ 4 * (0 : ℚ) := by
  have hraw : rawEstimate { k := 2, seed := 314, size := 4, registers := [0, 0, 0, 0] }
      = 57704 / 25395 := by
    simp [rawEstimate, harmonicSum, alpha, List.range_succ]
    norm_num
  refine ⟨rfl, by decide, countZeros_eq_zero, by rw [hraw]; norm_num, ?_⟩
  intro ln
  have hc : HyperLogLog_cardinality ln
      { k := 2, seed := 314, size := 4, registers := [0, 0, 0, 0] } = 57704 / 25395 := by
    rw [cardinality_eq_raw_or_large, hraw]
    norm_num
  rw [hc]
  norm_num

/-- C10: register 0 is never used: the index of every add is at least 1, so a
completed add leaves register 0 as it was. -/
theorem register_zero_never_written (s s' : HyperLogLog) (h : Nat) (hwf : WF s)
    (hh : h < 2 ^ 32) (hadd : HyperLogLog_add_hash s h = .ok s') :
    HyperLogLog_add_index s.k h ≠ 0 ∧ s'.registers[0]? = s.registers[0]? := by
  have hi := (add_index_eq s.k h ⟨hwf.1, hwf.2.1⟩ hh).1
  have hne : HyperLogLog_add_index s.k h ≠ 0 := by
    rw [hi]
    exact Nat.succ_ne_zero _
  refine ⟨hne, ?_⟩
  by_cases hidx : HyperLogLog_add_index s.k h < s.size
  · rw [add_hash_eq s h hwf hidx] at hadd
    cases hadd
    simp [List.getElem?_set_ne hne]
  · rw [add_hash_error s h hwf hidx] at hadd
    cases hadd

/-- Witness for C10: hash `0` at `k = 2` writes register 1, not register 0. -/
theorem register_zero_never_written_witness :
    HyperLogLog_add_index 2 0 ≠ 0 ∧
    ([0, 31, 0, 0] : List Nat)[0]? = ([0, 0, 0, 0] : List Nat)[0]? :=
  register_zero_never_written { k := 2, seed := 314, size := 4, registers := [0, 0, 0, 0] }
    { k := 2, seed := 314, size := 4, registers := [0, 31, 0, 0] } 0
    (by unfold WF; decide) (by decide) rfl


/-! ## Estimation, merge and the bit counts -/

/-- C11: in every reachable state the harmonic sum is strictly positive, the
value returned is the raw estimate or, when the raw estimate exceeds
`2 ^ 32 / 30`, its large-range correction, the argument `1 - E / 2 ^ 32` of the
logarithm is strictly positive, and the value returned is non-negative for a
logarithm that is non-positive on `(0, 1]`. -/
theorem cardinality_defined_and_nonneg (ln : ℚ → ℚ) (s : HyperLogLog) (hr : Reachable s)
    (hln : ∀ y : ℚ, 0 < y → y ≤ 1 → ln y ≤ 0) :
    0 < harmonicSum s ∧
    (HyperLogLog_cardinality ln s = rawEstimate s ∨
      (rawEstimate s > (1.0 / 30.0) * 4294967296.0 ∧
        HyperLogLog_cardinality ln s
          = -4294967296.0 * ln (1.0 - rawEstimate s / 4294967296.0))) ∧
    0 < 1.0 - rawEstimate s / 4294967296.0 ∧
    0 ≤ HyperLogLog_cardinality ln s := by
  obtain ⟨hZ, hpos, hlt⟩ := rawEstimate_bounds s (reachable_reachInv s hr)
  have harg : (0 : ℚ) < 1.0 - rawEstimate s / 4294967296.0 := by
    have : rawEstimate s / 4294967296.0 < 1 := by
      rw [div_lt_one (by norm_num)]
      norm_num
      exact hlt
    norm_num at this ⊢
    linarith
  have harg1 : (1.0 : ℚ) - rawEstimate s / 4294967296.0 ≤ 1 := by
    have : 0 ≤ rawEstimate s / 4294967296.0 := by
      apply div_nonneg (le_of_lt hpos)
      norm_num
    norm_num at this ⊢
    linarith
  have hc := cardinality_eq_raw_or_large ln s
  refine ⟨by linarith, ?_, harg, ?_⟩
  · by_cases h : rawEstimate s ≤ (1.0 / 30.0) * 4294967296.0
    · left
      rw [hc, if_pos h]
    · right
      refine ⟨lt_of_not_le h, ?_⟩
      rw [hc, if_neg h]
  · rw [hc]
    split
    · exact le_of_lt hpos
    · have := hln _ harg harg1
      have h2 : (-4294967296.0 : ℚ) ≤ 0 := by norm_num
      exact mul_nonneg_of_nonpos_of_nonpos h2 this

/-- Witness for C11: the state reached at `k = 2` by hash `0`. -/
theorem cardinality_defined_and_nonneg_witness :
    0 < harmonicSum { k := 2, seed := 314, size := 4, registers := [0, 31, 0, 0] } ∧
    0 ≤ HyperLogLog_cardinality (fun y => y - 1)
      { k := 2, seed := 314, size := 4, registers := [0, 31, 0, 0] } :=
  ⟨(cardinality_defined_and_nonneg (fun y => y - 1)
      { k := 2, seed := 314, size := 4, registers := [0, 31, 0, 0] }
      ⟨2, 314, [0], { k := 2, seed := 314, size := 4, registers := [0, 0, 0, 0] },
        rfl, by decide, rfl⟩
      (fun _ _ hy => sub_nonpos.2 hy)).1,
   (cardinality_defined_and_nonneg (fun y => y - 1)
      { k := 2, seed := 314, size := 4, registers := [0, 31, 0, 0] }
      ⟨2, 314, [0], { k := 2, seed := 314, size := 4, registers := [0, 0, 0, 0] },
        rfl, by decide, rfl⟩
      (fun _ _ hy => sub_nonpos.2 hy)).2.2.2⟩

/-- C12: the estimator provides no merge operation: the method table holds
`add`, `cardinality`, `registers` and `size` only. -/
theorem merge_not_in_method_table :
    HyperLogLog_methods = ["add", "cardinality", "registers", "size"] ∧
    "merge" ∉ HyperLogLog_methods := by
  constructor
  · rfl
  · decide
/-- C13 as stated fails: at `k = 2`, hash `5`, the rank field is `5 = 0b101`, whose
least-significant 1-bit is bit 0 (position 1 from the low end of the 30-bit
field, position 30 from its high end), while the rank computed is 28. -/
theorem rank_is_not_least_significant_one_position :
    HyperLogLog_add_field 2 5 = 5 ∧
    leastSignificantOnePosition (32 - 2) (5 % 2 ^ (32 - 2)) = some 1 ∧
    HyperLogLog_add_rank 2 5 = 28 ∧
    some (HyperLogLog_add_rank 2 5) ≠ leastSignificantOnePosition (32 - 2) (5 % 2 ^ (32 - 2)) ∧
    some (HyperLogLog_add_rank 2 5)
      ≠ (leastSignificantOnePosition (32 - 2) (5 % 2 ^ (32 - 2))).map (fun p => 32 - 2 + 1 - p) := by
  decide

/-- C13 amended: for every 32-bit hash and `k` in `[2, 16]` with a non-zero rank
field, the rank is the position of the most-significant 1-bit of the field,
counting from 1 at the top bit of the `(32 - k)`-bit field and going down; the
rank is `32 - k + 1` when the field is entirely zero. -/
theorem rank_is_most_significant_one_position (k : Int) (h : Nat) (hk : 2 ≤ k ∧ k ≤ 16)
    (_hh : h < 2 ^ 32) :
    (h % 2 ^ (32 - k.toNat) ≠ 0 →
      mostSignificantOnePosition (32 - k.toNat) (h % 2 ^ (32 - k.toNat))
        = some (HyperLogLog_add_rank k h)) ∧
    (h % 2 ^ (32 - k.toNat) = 0 → HyperLogLog_add_rank k h = 32 - k.toNat + 1) := by
  obtain ⟨n, rfl⟩ : ∃ n : Nat, k = (n : Int) := ⟨k.toNat, by omega⟩
  simp only [Int.toNat_ofNat]
  have hn : 2 ≤ n ∧ n ≤ 16 := by omega
  have hlt : h % 2 ^ (32 - n) < 2 ^ (32 - n) := Nat.mod_lt _ (by positivity)
  obtain ⟨hsz, hr⟩ := add_rank_eq n h hn
  have hs := leadingZerosOfField_eq _ _ hlt
  constructor
  · intro hne
    have hpos : 0 < (h % 2 ^ (32 - n)).size := Nat.size_pos.2 (Nat.pos_of_ne_zero hne)
    unfold mostSignificantOnePosition
    rw [find_from_top, hs, if_pos (by omega), hr]
    simp only [Option.map_some']
    congr 1
    omega
  · intro h0
    rw [hr, h0]
    simp

/-- Witness for the amended C13 at `k = 2`, hash `1`: the most-significant 1-bit
of the 30-bit field `1` is 30 positions below the top. -/
theorem rank_is_most_significant_one_position_witness :
    mostSignificantOnePosition (32 - (2 : Int).toNat) (1 % 2 ^ (32 - (2 : Int).toNat))
      = some (HyperLogLog_add_rank 2 1) ∧ HyperLogLog_add_rank 2 1 = 30 :=
  ⟨(rank_is_most_significant_one_position 2 1 (by decide) (by decide)).1 (by decide),
    by decide⟩
/-- C14: in every state reached from construction by completed adds of 32-bit
hashes, `k` is in `[2, 16]`, there are `2 ^ k` registers, and every register
lies in `[0, 32 - k + 1]`, so is at most 31 and is kept by the narrowing to
one byte. -/
theorem reachable_registers_bounded (s : HyperLogLog) (hr : Reachable s) :
    2 ≤ s.k ∧ s.k ≤ 16 ∧ s.registers.length = 2 ^ s.k.toNat ∧
    ∀ r ∈ s.registers, 0 ≤ r ∧ r ≤ 32 - s.k.toNat + 1 ∧ r ≤ 31 ∧ r % 256 = r := by
  obtain ⟨hwf, _, hb⟩ := reachable_reachInv s hr
  obtain ⟨hk1, hk2, hsize, hlen, _⟩ := hwf
  refine ⟨hk1, hk2, by omega, ?_⟩
  intro r hrm
  have := hb r hrm
  omega

/-- Witness for C14: register 1 of the state reached at `k = 2` by hashes `0`
and `0x40000001`. -/
theorem reachable_registers_bounded_witness :
    31 ∈ ([0, 31, 30, 0] : List Nat) ∧
    (0 ≤ 31 ∧ 31 ≤ 32 - (2 : Int).toNat + 1 ∧ 31 ≤ 31 ∧ 31 % 256 = 31) :=
  ⟨by decide,
    (reachable_registers_bounded { k := 2, seed := 314, size := 4, registers := [0, 31, 30, 0] }
      ⟨2, 314, [0, 1073741825], { k := 2, seed := 314, size := 4, registers := [0, 0, 0, 0] },
        rfl, by decide, rfl⟩).2.2.2 31 (by decide)⟩

/-- C15: for every reachable state and every further 32-bit hash, a completed
add does not raise the harmonic sum `Z = Σ 2 ^ (-registers[i])` and does not
lower the raw estimate or the value `cardinality()` returns, for a logarithm
that is monotone and below `y - 1` on `(0, 1]`; the add completes whenever its
index is inside the array. -/
theorem cardinality_monotone_under_add (ln : ℚ → ℚ) (s : HyperLogLog) (h : Nat)
    (hr : Reachable s) (hh : h < 2 ^ 32)
    (hmono : ∀ x y : ℚ, 0 < x → x ≤ y → y ≤ 1 → ln x ≤ ln y)
    (hle : ∀ y : ℚ, 0 < y → y ≤ 1 → ln y ≤ y - 1) :
    (HyperLogLog_add_index s.k h < s.size → ∃ s', HyperLogLog_add_hash s h = .ok s') ∧
    ∀ s', HyperLogLog_add_hash s h = .ok s' →
      harmonicSum s = (s.registers.map (fun r => 1 / (2 : ℚ) ^ r)).sum ∧
      harmonicSum s' = (s'.registers.map (fun r => 1 / (2 : ℚ) ^ r)).sum ∧
      harmonicSum s' ≤ harmonicSum s ∧
      rawEstimate s ≤ rawEstimate s' ∧
      HyperLogLog_cardinality ln s ≤ HyperLogLog_cardinality ln s' := by
  have hinv := reachable_reachInv s hr
  refine ⟨fun hidx => ⟨_, add_hash_eq s h hinv.1 hidx⟩, ?_⟩
  intro s' hadd
  have hinv' := add_reachInv s s' h hinv hh hadd
  obtain ⟨hsize, hregs⟩ := add_hash_getD_le s s' h hinv.1 hadd
  have hZ := harmonicSum_antitone s s' hsize hregs
  obtain ⟨hZ1, hpos, _⟩ := rawEstimate_bounds s hinv
  obtain ⟨hZ1', _, hlt'⟩ := rawEstimate_bounds s' hinv'
  have ha := alpha_pos_lt_one s.size
  have hraw : rawEstimate s ≤ rawEstimate s' := by
    unfold rawEstimate
    rw [hsize]
    have hdiv : 1 / harmonicSum s ≤ 1 / harmonicSum s' :=
      one_div_le_one_div_of_le (by linarith) hZ
    have hm : (0 : ℚ) ≤ (s.size : ℚ) := Nat.cast_nonneg _
    exact mul_le_mul_of_nonneg_right
      (mul_le_mul_of_nonneg_right (mul_le_mul_of_nonneg_left hdiv (le_of_lt ha.1)) hm) hm
  exact ⟨harmonicSum_eq_sum s hinv.1.2.2.2.1, harmonicSum_eq_sum s' hinv'.1.2.2.2.1, hZ, hraw,
    cardinality_mono_of_raw ln s s' hmono hle hpos hraw hlt'⟩

/-- Witness for C15: hash `0x40000001` added to the state reached by hash `0`
at `k = 2`. -/
theorem cardinality_monotone_under_add_witness :
    harmonicSum { k := 2, seed := 314, size := 4, registers := [0, 31, 30, 0] }
      ≤ harmonicSum { k := 2, seed := 314, size := 4, registers := [0, 31, 0, 0] } ∧
    HyperLogLog_cardinality (fun y => y - 1)
        { k := 2, seed := 314, size := 4, registers := [0, 31, 0, 0] }
      ≤ HyperLogLog_cardinality (fun y => y - 1)
        { k := 2, seed := 314, size := 4, registers := [0, 31, 30, 0] } :=
  ⟨((cardinality_monotone_under_add (fun y => y - 1)
      { k := 2, seed := 314, size := 4, registers := [0, 31, 0, 0] } 1073741825
      ⟨2, 314, [0], { k := 2, seed := 314, size := 4, registers := [0, 0, 0, 0] },
        rfl, by decide, rfl⟩
      (by decide) (fun _ _ _ hxy _ => sub_le_sub_right hxy 1) (fun y _ _ => le_refl _)).2
      { k := 2, seed := 314, size := 4, registers := [0, 31, 30, 0] } rfl).2.2.1,
   ((cardinality_monotone_under_add (fun y => y - 1)
      { k := 2, seed := 314, size := 4, registers := [0, 31, 0, 0] } 1073741825
      ⟨2, 314, [0], { k := 2, seed := 314, size := 4, registers := [0, 0, 0, 0] },
        rfl, by decide, rfl⟩
      (by decide) (fun _ _ _ hxy _ => sub_le_sub_right hxy 1) (fun y _ _ => le_refl _)).2
      { k := 2, seed := 314, size := 4, registers := [0, 31, 30, 0] } rfl).2.2.2.2⟩
/-- C16: the bias-correction constant depends on the register count only: it is
0.673, 0.697 and 0.709 for 16, 32 and 64 registers and `0.7213 / (1 + 1.079 / m)`
for every other count, 4 and 8 included; the raw estimate is
`alpha * m ^ 2 / Z`. -/
theorem alpha_depends_on_size_only :
    alpha 16 = 0.673 ∧ alpha 32 = 0.697 ∧ alpha 64 = 0.709 ∧
    (∀ m : Nat, m ≠ 16 → m ≠ 32 → m ≠ 64 → alpha m = 0.7213 / (1 + 1.079 / (m : ℚ))) ∧
    alpha 4 = 0.7213 / (1 + 1.079 / 4) ∧ alpha 8 = 0.7213 / (1 + 1.079 / 8) ∧
    ∀ s : HyperLogLog,
      rawEstimate s = alpha s.size * (s.size : ℚ) ^ 2 / harmonicSum s := by
  refine ⟨rfl, rfl, rfl, ?_, ?_, ?_, ?_⟩
  · intro m h1 h2 h3
    unfold alpha
    split
    · exact absurd rfl h1
    · exact absurd rfl h2
    · exact absurd rfl h3
    · norm_num
  · unfold alpha
    norm_num
  · unfold alpha
    norm_num
  · intro s
    unfold rawEstimate
    ring
/-- C17: for every well-formed state and every two hash values, adding `a` then
`b` gives the same outcome as adding `b` then `a`; and two streams with the
same set of elements give the same outcome, whatever their order and
multiplicities. -/
theorem add_order_independent (s : HyperLogLog) (a b : Nat) (l1 l2 : List Nat) (hwf : WF s)
    (hset : ∀ x, x ∈ l1 ↔ x ∈ l2) :
    (HyperLogLog_add_hash s a >>= fun t => HyperLogLog_add_hash t b)
      = (HyperLogLog_add_hash s b >>= fun t => HyperLogLog_add_hash t a) ∧
    addAll s [a, b] = addAll s [b, a] ∧
    addAll s l1 = addAll s l2 :=
  ⟨add_hash_comm s a b hwf,
    addAll_perm (List.Perm.swap b a []) s hwf,
    addAll_of_same_set s l1 l2 hwf hset⟩

/-- Witness for C17: hashes `0` and `0x40000001` at `k = 2`, in both orders and
with a repetition. -/
theorem add_order_independent_witness :
    addAll { k := 2, seed := 314, size := 4, registers := [0, 0, 0, 0] } [0, 1073741825]
      = addAll { k := 2, seed := 314, size := 4, registers := [0, 0, 0, 0] } [1073741825, 0] ∧
    addAll { k := 2, seed := 314, size := 4, registers := [0, 0, 0, 0] } [0, 1073741825, 0]
      = .ok { k := 2, seed := 314, size := 4, registers := [0, 31, 30, 0] } :=
  ⟨(add_order_independent { k := 2, seed := 314, size := 4, registers := [0, 0, 0, 0] }
      0 1073741825 [0, 1073741825, 0] [1073741825, 0] (by unfold WF; decide)
      (fun x => by simp; tauto)).2.1,
   (add_order_independent { k := 2, seed := 314, size := 4, registers := [0, 0, 0, 0] }
      0 1073741825 [0, 1073741825, 0] [1073741825, 0] (by unfold WF; decide)
      (fun x => by simp; tauto)).2.2.trans rfl⟩
/-- C18: for every 32-bit `x`, `leadingZeroCount x` is the number of leading zero
bits of `x` read as a 32-bit field: 32 when `x = 0`, otherwise
`31 - floor (log2 x)`. -/
theorem leadingZeroCount_counts_leading_zeros (x : Nat) (hx : x < 2 ^ 32) :
    leadingZeroCount x = leadingZerosOfField 32 x ∧
    (x = 0 → leadingZeroCount x = 32) ∧
    (x ≠ 0 → leadingZeroCount x = 31 - Nat.log2 x ∧ Nat.log2 x ≤ 31) ∧
    leadingZeroCount x ≤ 32 := by
  have hl := leadingZeroCount_eq x hx
  have hs := leadingZerosOfField_eq 32 x hx
  refine ⟨by rw [hl, hs], ?_, ?_, by omega⟩
  · intro h0
    rw [hl, h0]
    simp
  · intro hne
    have := size_eq_log2_succ x hne
    have hsz : x.size ≤ 32 := Nat.size_le.2 hx
    omega

/-- Witness for C18 at `x = 5`: 29 leading zeros. -/
theorem leadingZeroCount_counts_leading_zeros_witness :
    leadingZeroCount 5 = leadingZerosOfField 32 5 ∧ leadingZeroCount 5 = 29 :=
  ⟨(leadingZeroCount_counts_leading_zeros 5 (by decide)).1, by decide⟩
/-- C19: for every 32-bit `x`, `ones x`, computed with every intermediate value
reduced modulo `2 ^ 32`, is the number of 1-bits among the 32 bits of `x`, a
value in `[0, 32]`. -/
theorem ones_counts_set_bits (x : Nat) (hx : x < 2 ^ 32) :
    ones x = popCount 32 x ∧ ones x ≤ 32 := by
  have h1 := ones_eq_nibbleSum x hx
  have h2 := nibbleSum_congr nibbleCount (popCount 4) (fun a ha => (nibbleCount_eq a ha).1) 8 x
  have h3 := popCount_eq_nibbleSum 8 x
  have h4 : ones x = popCount 32 x := by
    rw [h1, h2, ← h3]
  refine ⟨h4, ?_⟩
  rw [h4]
  unfold popCount
  have := List.countP_le_length (fun i => x.testBit i) (l := List.range 32)
  simpa using this

/-- Witness for C19 at `x = 0xF0F0F0F1`, which has 17 bits set. -/
theorem ones_counts_set_bits_witness :
    ones 4042322161 = popCount 32 4042322161 ∧ ones 4042322161 = 17 :=
  ⟨(ones_counts_set_bits 4042322161 (by decide)).1, by decide⟩

end HLL
